import Mathlib

/-!
# Verification of the CaTune FISTA deconvolution solver core

This file gives a shallow embedding of the Rust sources of the
`catune-solver` crate (`kernel.rs`, `fft.rs`, `filter.rs`, `fista.rs`,
`lib.rs`) and proves/refutes the frozen claims about them.

Modelling conventions:

* `f32`/`f64` arithmetic is modelled by exact real arithmetic `ℝ`
  (the claims under study are either stated "exactly over real
  arithmetic" or are control-flow/shape claims that do not depend on
  rounding).  The single exception is the warm-start blob codec, where
  the byte-level IEEE-754 decoding of `from_le_bytes` is modelled
  bit-faithfully (see `decodeF32`/`decodeF64`).
* The `realfft` library's real-input FFT/inverse-FFT pair is modelled
  by the mathematical DFT/inverse-DFT at full length `N`; the library's
  half-spectrum representation (`N/2 + 1` complex bins plus implicit
  Hermitian symmetry) multiplies pointwise exactly like the full
  Hermitian spectrum, so the two are mathematically identical for the
  real inputs used here.
* Buffer capacities (the grow-only `Vec` resizes) are immaterial once
  buffers are total functions `ℕ → ℝ`; every operation writes exactly
  the index range the source writes and leaves other indices unchanged.
-/

noncomputable section

open scoped BigOperators

/-- `usize::next_power_of_two` of Rust: the least power of two `≥ n`
(`1` for `n ≤ 1`). -/
def nextPow2 (n : ℕ) : ℕ := 2 ^ Nat.clog 2 n

theorem le_nextPow2 (n : ℕ) : n ≤ nextPow2 n := Nat.le_pow_clog one_lt_two n

theorem nextPow2_pos (n : ℕ) : 0 < nextPow2 n := Nat.pos_pow_of_pos _ (by norm_num)

/-- Discrete Fourier transform of length `N` (the forward transform
computed by `realfft`'s `process_with_scratch`, extended from the
stored `N/2+1` bins to all `N` bins). -/
def dft (N : ℕ) (x : ℕ → ℂ) (k : ℕ) : ℂ :=
  ∑ j ∈ Finset.range N, x j * Complex.exp (-(2 * (Real.pi : ℂ) * Complex.I) * k * j / N)

/-- Unnormalised inverse DFT of length `N` (what `realfft`'s inverse
plan computes; the sources multiply the result by `1/N`). -/
def idft (N : ℕ) (X : ℕ → ℂ) (t : ℕ) : ℂ :=
  ∑ k ∈ Finset.range N, X k * Complex.exp ((2 * (Real.pi : ℂ) * Complex.I) * k * t / N)

/-- Circular convolution at length `N`. -/
def circConv (N : ℕ) (a b : ℕ → ℂ) (t : ℕ) : ℂ :=
  ∑ j ∈ Finset.range N, a j * b ((N + t - j) % N)

/-- Circular cross-correlation at length `N`. -/
def circCorr (N : ℕ) (a b : ℕ → ℂ) (t : ℕ) : ℂ :=
  ∑ j ∈ Finset.range N, a j * b ((t + j) % N)

theorem int_dvd_bounded_eq_zero (N x : ℤ) (hN : 0 < N) (h1 : -N < x) (h2 : x < N)
    (hd : N ∣ x) : x = 0 := by
  rcases hd with ⟨c, rfl⟩
  have hc1 : c < 1 := by
    by_contra h
    push_neg at h
    nlinarith
  have hc2 : -1 < c := by
    by_contra h
    push_neg at h
    nlinarith
  have : c = 0 := by omega
  simp [this]

/-- Sum of the `N`-th roots of unity raised to the `d`-th power:
`N` when `N ∣ d`, `0` otherwise. -/
theorem sum_exp_unit (N : ℕ) (hN : 0 < N) (d : ℤ) :
    ∑ k ∈ Finset.range N,
        Complex.exp ((2 * (Real.pi : ℂ) * Complex.I) * d * k / N)
      = if (N : ℤ) ∣ d then (N : ℂ) else 0 := by
  have hNC : (N : ℂ) ≠ 0 := Nat.cast_ne_zero.mpr hN.ne'
  set ω : ℂ := Complex.exp ((2 * (Real.pi : ℂ) * Complex.I) * d / N) with hω
  have hterm : ∀ k : ℕ,
      Complex.exp ((2 * (Real.pi : ℂ) * Complex.I) * d * k / N) = ω ^ k := by
    intro k
    rw [hω, ← Complex.exp_nat_mul]
    congr 1
    ring
  simp only [hterm]
  have h2πI : (2 * (Real.pi : ℂ) * Complex.I) ≠ 0 := by
    simp [Real.pi_ne_zero, Complex.I_ne_zero]
  by_cases hd : (N : ℤ) ∣ d
  · obtain ⟨e, he⟩ := id hd
    have hω1 : ω = 1 := by
      have hcast : ((d : ℤ) : ℂ) = (N : ℂ) * (e : ℂ) := by
        exact_mod_cast congrArg (fun z : ℤ => (z : ℂ)) he
      have harg : (2 * (Real.pi : ℂ) * Complex.I) * d / N
          = (e : ℂ) * (2 * (Real.pi : ℂ) * Complex.I) := by
        rw [hcast]
        field_simp
        ring
      rw [hω, harg, Complex.exp_int_mul_two_pi_mul_I]
    simp [hω1, hd]
  · have hω1 : ω ≠ 1 := by
      intro h
      rw [hω, Complex.exp_eq_one_iff] at h
      obtain ⟨m, hm⟩ := h
      apply hd
      refine ⟨m, ?_⟩
      have h1 : (2 * (Real.pi : ℂ) * Complex.I) * d
          = (2 * (Real.pi : ℂ) * Complex.I) * ((m : ℂ) * N) := by
        have h0 := congrArg (fun z : ℂ => z * (N : ℂ)) hm
        simp only [div_mul_cancel₀ _ hNC] at h0
        rw [h0]
        ring
      have h2 : (d : ℂ) = (m : ℂ) * N := mul_left_cancel₀ h2πI h1
      have h3 : d = m * N := by exact_mod_cast h2
      rw [h3]
      ring
    have hωN : ω ^ N = 1 := by
      rw [hω, ← Complex.exp_nat_mul]
      have harg : (N : ℂ) * ((2 * (Real.pi : ℂ) * Complex.I) * d / N)
          = (d : ℂ) * (2 * (Real.pi : ℂ) * Complex.I) := by
        field_simp
        ring
      rw [harg]
      exact_mod_cast Complex.exp_int_mul_two_pi_mul_I d
    rw [geom_sum_eq hω1, hωN]
    simp [hd]

theorem idft_dft_mul_dft (N : ℕ) (hN : 0 < N) (a b : ℕ → ℂ) (t : ℕ) :
    idft N (fun k => dft N a k * dft N b k) t = N * circConv N a b t := by
  classical
  have hNC : (N : ℂ) ≠ 0 := Nat.cast_ne_zero.mpr hN.ne'
  have expand : ∀ k : ℕ,
      dft N a k * dft N b k *
          Complex.exp ((2 * (Real.pi : ℂ) * Complex.I) * k * t / N)
        = ∑ j ∈ Finset.range N, ∑ l ∈ Finset.range N,
            a j * b l *
              Complex.exp ((2 * (Real.pi : ℂ) * Complex.I) * ((t - j - l : ℤ) : ℂ) * k / N) := by
    intro k
    unfold dft
    rw [Finset.sum_mul_sum, Finset.sum_mul]
    refine Finset.sum_congr rfl fun j _ => ?_
    rw [Finset.sum_mul]
    refine Finset.sum_congr rfl fun l _ => ?_
    rw [show a j * Complex.exp (-(2 * (Real.pi : ℂ) * Complex.I) * k * j / N) *
          (b l * Complex.exp (-(2 * (Real.pi : ℂ) * Complex.I) * k * l / N)) *
          Complex.exp ((2 * (Real.pi : ℂ) * Complex.I) * k * t / N)
        = a j * b l *
          (Complex.exp (-(2 * (Real.pi : ℂ) * Complex.I) * k * j / N) *
            Complex.exp (-(2 * (Real.pi : ℂ) * Complex.I) * k * l / N) *
            Complex.exp ((2 * (Real.pi : ℂ) * Complex.I) * k * t / N)) from by ring]
    rw [← Complex.exp_add, ← Complex.exp_add]
    congr 2
    push_cast
    ring
  unfold idft
  rw [Finset.sum_congr rfl fun k _ => expand k, Finset.sum_comm]
  rw [Finset.sum_congr rfl fun j _ => Finset.sum_comm]
  have inner : ∀ j l : ℕ,
      ∑ k ∈ Finset.range N,
          a j * b l *
            Complex.exp ((2 * (Real.pi : ℂ) * Complex.I) * ((t - j - l : ℤ) : ℂ) * k / N)
        = a j * b l * (if (N : ℤ) ∣ (t - j - l : ℤ) then (N : ℂ) else 0) := by
    intro j l
    rw [← Finset.mul_sum, sum_exp_unit N hN (t - j - l : ℤ)]
  rw [Finset.sum_congr rfl fun j _ =>
    Finset.sum_congr rfl fun l _ => inner j l]
  have pick : ∀ j ∈ Finset.range N,
      ∑ l ∈ Finset.range N,
          a j * b l * (if (N : ℤ) ∣ (t - j - l : ℤ) then (N : ℂ) else 0)
        = a j * b ((N + t - j) % N) * N := by
    intro j hj
    have hjN : j < N := Finset.mem_range.mp hj
    set l₀ : ℕ := (N + t - j) % N with hl₀
    have hl₀N : l₀ < N := Nat.mod_lt _ hN
    have hdvd₀ : (N : ℤ) ∣ ((t : ℤ) - j - l₀) := by
      obtain ⟨q, hq⟩ : ∃ q, N + t - j = N * q + l₀ :=
        ⟨(N + t - j) / N, (Nat.div_add_mod _ _).symm⟩
      have hj' : j ≤ N + t := le_trans hjN.le (Nat.le_add_right _ _)
      have keyZ : (N : ℤ) + t - j = N * q + l₀ := by
        have := congrArg (fun z : ℕ => (z : ℤ)) hq
        push_cast [Nat.cast_sub hj'] at this
        exact this
      refine ⟨(q : ℤ) - 1, ?_⟩
      rw [mul_sub, mul_one]
      linarith
    have hzero : ∀ l ∈ Finset.range N, l ≠ l₀ →
        a j * b l * (if (N : ℤ) ∣ (t - j - l : ℤ) then (N : ℂ) else 0) = 0 := by
      intro l hl hne
      rw [if_neg, mul_zero]
      intro hdvd
      have hdiff : (N : ℤ) ∣ ((l₀ : ℤ) - l) := by
        have hsub := dvd_sub hdvd hdvd₀
        have heq : ((t : ℤ) - j - l) - ((t : ℤ) - j - l₀) = (l₀ : ℤ) - l := by ring
        rwa [heq] at hsub
      have hlN : l < N := Finset.mem_range.mp hl
      have hz : (l₀ : ℤ) - l = 0 := by
        refine int_dvd_bounded_eq_zero N _ (by exact_mod_cast hN) ?_ ?_ hdiff
        · have : (l : ℤ) < N := by exact_mod_cast hlN
          omega
        · have : (l₀ : ℤ) < N := by exact_mod_cast hl₀N
          omega
      have : l₀ = l := by omega
      exact absurd this.symm hne
    rw [Finset.sum_eq_single_of_mem l₀ (Finset.mem_range.mpr hl₀N) hzero, if_pos hdvd₀]
  rw [Finset.sum_congr rfl pick]
  unfold circConv
  rw [Finset.mul_sum]
  refine Finset.sum_congr rfl fun j _ => ?_
  ring

theorem conj_dft_eq (N : ℕ) (h : ℕ → ℂ) (k : ℕ) :
    (starRingEnd ℂ) (dft N h k)
      = ∑ l ∈ Finset.range N,
          (starRingEnd ℂ) (h l) *
            Complex.exp ((2 * (Real.pi : ℂ) * Complex.I) * k * l / N) := by
  unfold dft
  rw [map_sum]
  refine Finset.sum_congr rfl fun l _ => ?_
  rw [map_mul]
  congr 1
  rw [← Complex.exp_conj]
  congr 1
  simp only [map_div₀, map_mul, map_neg, Complex.conj_I, map_ofNat,
    Complex.conj_ofReal, map_natCast]
  ring

theorem idft_dft_mul_conj_dft (N : ℕ) (hN : 0 < N) (x h : ℕ → ℂ) (t : ℕ) :
    idft N (fun k => dft N x k * (starRingEnd ℂ) (dft N h k)) t
      = N * circCorr N (fun l => (starRingEnd ℂ) (h l)) x t := by
  classical
  have hNC : (N : ℂ) ≠ 0 := Nat.cast_ne_zero.mpr hN.ne'
  have expand : ∀ k : ℕ,
      dft N x k * (starRingEnd ℂ) (dft N h k) *
          Complex.exp ((2 * (Real.pi : ℂ) * Complex.I) * k * t / N)
        = ∑ j ∈ Finset.range N, ∑ l ∈ Finset.range N,
            x j * (starRingEnd ℂ) (h l) *
              Complex.exp ((2 * (Real.pi : ℂ) * Complex.I) * ((t + l - j : ℤ) : ℂ) * k / N) := by
    intro k
    rw [conj_dft_eq]
    unfold dft
    rw [Finset.sum_mul_sum, Finset.sum_mul]
    refine Finset.sum_congr rfl fun j _ => ?_
    rw [Finset.sum_mul]
    refine Finset.sum_congr rfl fun l _ => ?_
    rw [show x j * Complex.exp (-(2 * (Real.pi : ℂ) * Complex.I) * k * j / N) *
          ((starRingEnd ℂ) (h l) *
            Complex.exp ((2 * (Real.pi : ℂ) * Complex.I) * k * l / N)) *
          Complex.exp ((2 * (Real.pi : ℂ) * Complex.I) * k * t / N)
        = x j * (starRingEnd ℂ) (h l) *
          (Complex.exp (-(2 * (Real.pi : ℂ) * Complex.I) * k * j / N) *
            Complex.exp ((2 * (Real.pi : ℂ) * Complex.I) * k * l / N) *
            Complex.exp ((2 * (Real.pi : ℂ) * Complex.I) * k * t / N)) from by ring]
    rw [← Complex.exp_add, ← Complex.exp_add]
    congr 2
    push_cast
    ring
  unfold idft
  rw [Finset.sum_congr rfl fun k _ => expand k, Finset.sum_comm]
  rw [Finset.sum_congr rfl fun j _ => Finset.sum_comm]
  rw [Finset.sum_comm]
  have inner : ∀ l j : ℕ,
      ∑ k ∈ Finset.range N,
          x j * (starRingEnd ℂ) (h l) *
            Complex.exp ((2 * (Real.pi : ℂ) * Complex.I) * ((t + l - j : ℤ) : ℂ) * k / N)
        = x j * (starRingEnd ℂ) (h l) *
            (if (N : ℤ) ∣ (t + l - j : ℤ) then (N : ℂ) else 0) := by
    intro l j
    rw [← Finset.mul_sum, sum_exp_unit N hN (t + l - j : ℤ)]
  rw [Finset.sum_congr rfl fun l _ =>
    Finset.sum_congr rfl fun j _ => inner l j]
  have pick : ∀ l ∈ Finset.range N,
      ∑ j ∈ Finset.range N,
          x j * (starRingEnd ℂ) (h l) *
            (if (N : ℤ) ∣ (t + l - j : ℤ) then (N : ℂ) else 0)
        = x ((t + l) % N) * (starRingEnd ℂ) (h l) * N := by
    intro l hl
    set j₀ : ℕ := (t + l) % N with hj₀
    have hj₀N : j₀ < N := Nat.mod_lt _ hN
    have hdvd₀ : (N : ℤ) ∣ ((t : ℤ) + l - j₀) := by
      obtain ⟨q, hq⟩ : ∃ q, t + l = N * q + j₀ :=
        ⟨(t + l) / N, (Nat.div_add_mod _ _).symm⟩
      have keyZ : (t : ℤ) + l = N * q + j₀ := by exact_mod_cast hq
      exact ⟨(q : ℤ), by linarith⟩
    have hzero : ∀ j ∈ Finset.range N, j ≠ j₀ →
        x j * (starRingEnd ℂ) (h l) *
          (if (N : ℤ) ∣ (t + l - j : ℤ) then (N : ℂ) else 0) = 0 := by
      intro j hj hne
      rw [if_neg, mul_zero]
      intro hdvd
      have hdiff : (N : ℤ) ∣ ((j₀ : ℤ) - j) := by
        have hsub := dvd_sub hdvd hdvd₀
        have heq : ((t : ℤ) + l - j) - ((t : ℤ) + l - j₀) = (j₀ : ℤ) - j := by ring
        rwa [heq] at hsub
      have hjN : j < N := Finset.mem_range.mp hj
      have hz : (j₀ : ℤ) - j = 0 := by
        refine int_dvd_bounded_eq_zero N _ (by exact_mod_cast hN) ?_ ?_ hdiff
        · have : (j : ℤ) < N := by exact_mod_cast hjN
          omega
        · have : (j₀ : ℤ) < N := by exact_mod_cast hj₀N
          omega
      have : j₀ = j := by omega
      exact absurd this.symm hne
    rw [Finset.sum_eq_single_of_mem j₀ (Finset.mem_range.mpr hj₀N) hzero, if_pos hdvd₀]
  rw [Finset.sum_congr rfl pick]
  unfold circCorr
  rw [Finset.mul_sum]
  refine Finset.sum_congr rfl fun l _ => ?_
  ring

theorem sum_range_ite_lt {β : Type} [AddCommMonoid β] (N M : ℕ) (hMN : M ≤ N) (f : ℕ → β) :
    ∑ j ∈ Finset.range N, (if j < M then f j else 0) = ∑ j ∈ Finset.range M, f j := by
  have hsub : Finset.range M ⊆ Finset.range N := Finset.range_subset.mpr hMN
  have hvanish : ∀ x ∈ Finset.range N, x ∉ Finset.range M →
      (if x < M then f x else 0) = 0 := by
    intro x _ hx
    exact if_neg (by simpa using hx)
  rw [← Finset.sum_subset hsub hvanish]
  exact Finset.sum_congr rfl fun j hj => if_pos (Finset.mem_range.mp hj)

/-- With padding `N ≥ n + m - 1`, the circular convolution of a kernel
supported on `[0, m)` with a signal supported on `[0, n)` agrees with
the causal linear convolution on the first `n` samples. -/
theorem circConv_eq_linear (N n m : ℕ) (K u : ℕ → ℂ)
    (hK : ∀ i, m ≤ i → K i = 0) (hu : ∀ i, n ≤ i → u i = 0)
    (hm : 0 < m) (hN : n + m ≤ N + 1) (t : ℕ) (ht : t < n) :
    circConv N K u t = ∑ k ∈ Finset.range (min m (t + 1)), K k * u (t - k) := by
  have hnN : n ≤ N := by omega
  unfold circConv
  have hterm : ∀ j ∈ Finset.range N,
      K j * u ((N + t - j) % N) = if j < min m (t + 1) then K j * u (t - j) else 0 := by
    intro j hj
    have hjN : j < N := Finset.mem_range.mp hj
    by_cases hjt : j ≤ t
    · have hmod : (N + t - j) % N = t - j := by
        have h1 : N + t - j = N + (t - j) := by omega
        rw [h1, Nat.add_mod_left]
        exact Nat.mod_eq_of_lt (by omega)
      rw [hmod]
      by_cases hjm : j < m
      · rw [if_pos (by omega)]
      · rw [if_neg (by omega), hK j (by omega), zero_mul]
    · push_neg at hjt
      rw [if_neg (by omega)]
      have hmod : (N + t - j) % N = N + t - j := Nat.mod_eq_of_lt (by omega)
      rw [hmod]
      by_cases hcase : N + t - j < n
      · rw [hK j (by omega), zero_mul]
      · rw [hu _ (by omega), mul_zero]
  rw [Finset.sum_congr rfl hterm]
  exact sum_range_ite_lt N _ (by omega) _

/-- With padding `N ≥ n + m - 1`, the circular correlation of a kernel
supported on `[0, m)` against a signal supported on `[0, n)` agrees with
the (truncated) linear correlation on the first `n` samples. -/
theorem circCorr_eq_linear (N n m : ℕ) (K u : ℕ → ℂ)
    (hK : ∀ i, m ≤ i → K i = 0) (hu : ∀ i, n ≤ i → u i = 0)
    (hm : 0 < m) (hN : n + m ≤ N + 1) (t : ℕ) (ht : t < n) :
    circCorr N K u t = ∑ k ∈ Finset.range (min m (n - t)), K k * u (t + k) := by
  unfold circCorr
  have hterm : ∀ j ∈ Finset.range N,
      K j * u ((t + j) % N) = if j < min m (n - t) then K j * u (t + j) else 0 := by
    intro j hj
    by_cases hjm : j < m
    · have hmod : (t + j) % N = t + j := Nat.mod_eq_of_lt (by omega)
      rw [hmod]
      by_cases hcase : t + j < n
      · rw [if_pos (by omega)]
      · rw [if_neg (by omega), hu _ (by omega), mul_zero]
    · rw [if_neg (by omega), hK j (by omega), zero_mul]
  rw [Finset.sum_congr rfl hterm]
  exact sum_range_ite_lt N _ (by omega) _

/-- Spectrum of a kernel (list) zero-padded to length `N`: what
`prepare_kernel_fft` (`lib.rs`) / `prepare_kernel` (`fft.rs`) store in
`kernel_fft` (the source writes `fft_input[i] = if i < k_len { kernel[i] }
else { 0.0 }` for `i < padded_len` and runs the forward FFT). -/
def dftSpec (K : List ℝ) (N : ℕ) (i : ℕ) : ℂ :=
  dft N (fun j => if j < K.length then ((K.getD j 0 : ℝ) : ℂ) else 0) i

/-- The common body of `convolve_forward_fft` / `convolve_adjoint_fft`
(`lib.rs` 362-444) and `convolve_forward` / `convolve_adjoint`
(`fft.rs` 151-255): zero-pad the first `n` samples of `source` to the
padded length `N`, forward FFT, pointwise multiply with the cached
spectrum `spec`, inverse FFT, scale by `1/N`; sample `t` of the output. -/
def fftSpecConvolve (N : ℕ) (spec : ℕ → ℂ) (n : ℕ) (u : ℕ → ℝ) (t : ℕ) : ℝ :=
  ((N : ℂ)⁻¹ *
    idft N (fun k => dft N (fun j => if j < n then ((u j : ℝ) : ℂ) else 0) k * spec k) t).re

theorem fft_forward_eq_linear (K : List ℝ) (u : ℕ → ℝ) (n N t : ℕ)
    (hm : 0 < K.length) (hN : n + K.length ≤ N + 1) (hNpos : 0 < N) (ht : t < n) :
    fftSpecConvolve N (dftSpec K N) n u t
      = ∑ k ∈ Finset.range (min K.length (t + 1)), K.getD k 0 * u (t - k) := by
  have hNC : (N : ℂ) ≠ 0 := Nat.cast_ne_zero.mpr hNpos.ne'
  unfold fftSpecConvolve dftSpec
  set uC : ℕ → ℂ := fun j => if j < n then ((u j : ℝ) : ℂ) else 0 with huC
  set KC : ℕ → ℂ := fun j => if j < K.length then ((K.getD j 0 : ℝ) : ℂ) else 0 with hKC
  have hswap : idft N (fun k => dft N uC k * dft N KC k) t
      = idft N (fun k => dft N KC k * dft N uC k) t := by
    unfold idft
    exact Finset.sum_congr rfl fun k _ => by ring
  rw [hswap, idft_dft_mul_dft N hNpos KC uC t,
    circConv_eq_linear N n K.length KC uC
      (fun i hi => by simp [hKC, Nat.not_lt.mpr hi])
      (fun i hi => by simp [huC, Nat.not_lt.mpr hi]) hm hN t ht]
  have hS : (∑ k ∈ Finset.range (min K.length (t + 1)), KC k * uC (t - k))
      = ((∑ k ∈ Finset.range (min K.length (t + 1)), K.getD k 0 * u (t - k) : ℝ) : ℂ) := by
    push_cast
    refine Finset.sum_congr rfl fun k hk => ?_
    have hkr := Finset.mem_range.mp hk
    have hkm : k < K.length := by omega
    have hkn : t - k < n := by omega
    simp [hKC, huC, hkm, hkn]
  rw [hS, show ((N : ℂ)⁻¹ * ((N : ℂ) *
        ((∑ k ∈ Finset.range (min K.length (t + 1)), K.getD k 0 * u (t - k) : ℝ) : ℂ)))
      = ((∑ k ∈ Finset.range (min K.length (t + 1)), K.getD k 0 * u (t - k) : ℝ) : ℂ) from by
    rw [← mul_assoc, inv_mul_cancel₀ hNC, one_mul]]
  exact Complex.ofReal_re _

theorem fft_adjoint_eq_corr (K : List ℝ) (v : ℕ → ℝ) (n N t : ℕ)
    (hm : 0 < K.length) (hN : n + K.length ≤ N + 1) (hNpos : 0 < N) (ht : t < n) :
    fftSpecConvolve N (fun i => (starRingEnd ℂ) (dftSpec K N i)) n v t
      = ∑ k ∈ Finset.range (min K.length (n - t)), K.getD k 0 * v (t + k) := by
  have hNC : (N : ℂ) ≠ 0 := Nat.cast_ne_zero.mpr hNpos.ne'
  unfold fftSpecConvolve dftSpec
  set vC : ℕ → ℂ := fun j => if j < n then ((v j : ℝ) : ℂ) else 0 with hvC
  set KC : ℕ → ℂ := fun j => if j < K.length then ((K.getD j 0 : ℝ) : ℂ) else 0 with hKC
  rw [idft_dft_mul_conj_dft N hNpos vC KC t]
  have hconj : (fun l => (starRingEnd ℂ) (KC l)) = KC := by
    funext l
    by_cases h : l < K.length
    · simp [hKC, h, Complex.conj_ofReal]
    · simp [hKC, h]
  rw [hconj,
    circCorr_eq_linear N n K.length KC vC
      (fun i hi => by simp [hKC, Nat.not_lt.mpr hi])
      (fun i hi => by simp [hvC, Nat.not_lt.mpr hi]) hm hN t ht]
  have hS : (∑ k ∈ Finset.range (min K.length (n - t)), KC k * vC (t + k))
      = ((∑ k ∈ Finset.range (min K.length (n - t)), K.getD k 0 * v (t + k) : ℝ) : ℂ) := by
    push_cast
    refine Finset.sum_congr rfl fun k hk => ?_
    have hkr := Finset.mem_range.mp hk
    have hkm : k < K.length := by omega
    have hkn : t + k < n := by omega
    simp [hKC, hvC, hkm, hkn]
  rw [hS, show ((N : ℂ)⁻¹ * ((N : ℂ) *
        ((∑ k ∈ Finset.range (min K.length (n - t)), K.getD k 0 * v (t + k) : ℝ) : ℂ)))
      = ((∑ k ∈ Finset.range (min K.length (n - t)), K.getD k 0 * v (t + k) : ℝ) : ℂ) from by
    rw [← mul_assoc, inv_mul_cancel₀ hNC, one_mul]]
  exact Complex.ofReal_re _

theorem sum_range_ite_le {β : Type} [AddCommMonoid β] (n k : ℕ) (f : ℕ → β) :
    ∑ t ∈ Finset.range n, (if k ≤ t then f t else 0) = ∑ t ∈ Finset.Ico k n, f t := by
  rw [← Finset.sum_filter]
  congr 1
  ext x
  simp only [Finset.mem_filter, Finset.mem_range, Finset.mem_Ico]
  omega

/-- Discrete Fubini for the causal convolution pairing: pairing the
causal convolution `K * u` against `v` equals pairing `u` against the
truncated correlation of `K` with `v`. -/
theorem conv_corr_sum_swap (K : List ℝ) (u v : ℕ → ℝ) (n : ℕ) :
    ∑ t ∈ Finset.range n,
        (∑ k ∈ Finset.range (min K.length (t + 1)), K.getD k 0 * u (t - k)) * v t
      = ∑ t ∈ Finset.range n,
          u t * ∑ k ∈ Finset.range (min K.length (n - t)), K.getD k 0 * v (t + k) := by
  have hL : ∀ t ∈ Finset.range n,
      (∑ k ∈ Finset.range (min K.length (t + 1)), K.getD k 0 * u (t - k)) * v t
        = ∑ k ∈ Finset.range K.length,
            (if k ≤ t then K.getD k 0 * u (t - k) * v t else 0) := by
    intro t _
    rw [Finset.sum_mul,
      (sum_range_ite_lt K.length (min K.length (t + 1)) (min_le_left _ _)
        (fun k => K.getD k 0 * u (t - k) * v t)).symm]
    refine Finset.sum_congr rfl fun k hk => ?_
    have hkm := Finset.mem_range.mp hk
    by_cases h : k ≤ t
    · rw [if_pos (by omega), if_pos h]
    · rw [if_neg (by omega), if_neg h]
  have hR : ∀ t ∈ Finset.range n,
      u t * ∑ k ∈ Finset.range (min K.length (n - t)), K.getD k 0 * v (t + k)
        = ∑ k ∈ Finset.range K.length,
            (if t + k < n then K.getD k 0 * u t * v (t + k) else 0) := by
    intro t ht
    have htn := Finset.mem_range.mp ht
    rw [Finset.mul_sum,
      (sum_range_ite_lt K.length (min K.length (n - t)) (min_le_left _ _)
        (fun k => u t * (K.getD k 0 * v (t + k)))).symm]
    refine Finset.sum_congr rfl fun k hk => ?_
    have hkm := Finset.mem_range.mp hk
    by_cases h : t + k < n
    · rw [if_pos (by omega), if_pos h]
      ring
    · rw [if_neg (by omega), if_neg h]
  rw [Finset.sum_congr rfl hL, Finset.sum_congr rfl hR, Finset.sum_comm]
  conv_rhs => rw [Finset.sum_comm]
  refine Finset.sum_congr rfl fun k _ => ?_
  rw [sum_range_ite_le n k (fun t => K.getD k 0 * u (t - k) * v t),
    Finset.sum_Ico_eq_sum_range]
  have hcond : ∀ t ∈ Finset.range n,
      (if t + k < n then K.getD k 0 * u t * v (t + k) else 0)
        = (if t < n - k then K.getD k 0 * u t * v (t + k) else 0) := by
    intro t _
    by_cases h : t + k < n
    · rw [if_pos h, if_pos (by omega)]
    · rw [if_neg h, if_neg (by omega)]
  rw [Finset.sum_congr rfl hcond,
    sum_range_ite_lt n (n - k) (by omega) (fun t => K.getD k 0 * u t * v (t + k))]
  refine Finset.sum_congr rfl fun s _ => ?_
  rw [Nat.add_sub_cancel_left, Nat.add_comm k s]

/-- The time-domain causal convolution loop of `compute_reconvolution`
(`lib.rs` 462-472, the `fft_len == 0` fallback):
`sum_{k < min(k_len, t+1)} kernel[k] * solution[t-k]`. -/
def time_domain_reconv (K : List ℝ) (x : ℕ → ℝ) (t : ℕ) : ℝ :=
  ∑ k ∈ Finset.range (min K.length (t + 1)), K.getD k 0 * x (t - k)

/-- `build_kernel` (`kernel.rs` 6-34) over exact reals: the
double-exponential kernel, normalised to peak `1.0` when the peak is
positive.  The `f64 → f32` narrowing of the source is the identity in
the real model. -/
def build_kernel (tau_rise tau_decay fs : ℝ) : List ℝ :=
  let dt := 1 / fs
  let kernel_len := max (⌈(-Real.log 1e-6) * tau_decay / dt⌉₊) 2
  let vals := (List.range kernel_len).map
    (fun i : ℕ => Real.exp (-((i : ℝ) * dt) / tau_decay) - Real.exp (-((i : ℝ) * dt) / tau_rise))
  let peak := vals.foldl max 0
  if 0 < peak then vals.map (fun v => v / peak) else vals

/-- `compute_lipschitz` (`kernel.rs` 68-96): `max_w |H(w)|^2` by direct
DFT over `nextPow2 (2 m)` frequencies, floored at `1e-10`. -/
def compute_lipschitz (kernel : List ℝ) : ℝ :=
  if kernel.length = 0 then 1e-10
  else
    let fft_len := nextPow2 (2 * kernel.length)
    let power := fun (w : ℕ) =>
      let freq := 2 * Real.pi * (w : ℝ) / (fft_len : ℝ)
      let re := ∑ k ∈ Finset.range kernel.length, kernel.getD k 0 * Real.cos (freq * k)
      let im := -∑ k ∈ Finset.range kernel.length, kernel.getD k 0 * Real.sin (freq * k)
      re * re + im * im
    max ((List.range fft_len).foldl (fun acc w => max acc (power w)) 0) 1e-10

/-- `BandpassFilter` (`filter.rs` 15-33).  The FFT planner, scratch
buffers, cached gain curve and cached power spectrum are omitted: they
are recomputed whenever cutoffs or the trace length change
(`update_cutoffs` sets `planned_len = 0`, and `ensure_buffers` rebuilds
the gain curve on any length change), so at every `apply` the gain
curve used is exactly the one derived from the current `f_hp`, `f_lp`,
`fs` — which is how the model computes it. -/
structure BandpassFilter where
  enabled : Bool
  f_hp : ℝ
  f_lp : ℝ
  fs : ℝ
  valid : Bool

/-- `BandpassFilter::new` (`filter.rs` 36-52). -/
def BandpassFilter.new : BandpassFilter :=
  { enabled := false, f_hp := 0, f_lp := 0, fs := 30, valid := false }

/-- `BandpassFilter::update_cutoffs` (`filter.rs` 62-90).
`MARGIN_FACTOR_HP = 16`, `MARGIN_FACTOR_LP = 4`. -/
def update_cutoffs (f : BandpassFilter) (tau_rise tau_decay fs : ℝ) : BandpassFilter :=
  if tau_rise ≤ 0 ∨ tau_decay ≤ 0 ∨ fs ≤ 0 then { f with fs := fs, valid := false }
  else
    let nyquist := fs / 2
    let fhp := 1 / (2 * Real.pi * tau_decay * 16)
    let flp0 := 4 / (2 * Real.pi * tau_rise)
    let flp := if nyquist < flp0 then nyquist else flp0
    { f with fs := fs, f_hp := fhp, f_lp := flp, valid := decide (fhp < flp) }

/-- `BandpassFilter::build_gain_curve` (`filter.rs` 130-162): the
cosine-tapered bandpass gain at spectrum bin `i` for an `n`-point FFT. -/
def gain_at (f_hp f_lp fs : ℝ) (n i : ℕ) : ℝ :=
  let df := fs / (n : ℝ)
  let fq := (i : ℝ) * df
  let w_hp := f_hp * 0.5
  let w_lp := f_lp * 0.5
  if fq < f_hp - w_hp then 0
  else if fq < f_hp + w_hp then
    0.5 * (1 - Real.cos (Real.pi * ((fq - (f_hp - w_hp)) / (2 * w_hp))))
  else if fq < f_lp - w_lp then 1
  else if fq < f_lp + w_lp then
    0.5 * (1 + Real.cos (Real.pi * ((fq - (f_lp - w_lp)) / (2 * w_lp))))
  else 0

/-- The in-place filtering pipeline of `BandpassFilter::apply`
(`filter.rs` 170-230): forward FFT, multiply the (Hermitian) spectrum
by the gain curve (bin `k` of the full spectrum carries the gain of the
stored bin `min k (n - k)`), inverse FFT scaled by `1/n`, then subtract
the rank-`round(0.02 n)` order statistic (the partial-selection
baseline). -/
def bandpass_pipeline (f : BandpassFilter) (trace : List ℝ) : List ℝ :=
  let n := trace.length
  let filtered := fun t => ((1 / (n : ℂ)) *
    idft n (fun k => dft n (fun j => ((trace.getD j 0 : ℝ) : ℂ)) k *
      ((gain_at f.f_hp f.f_lp f.fs n (min k (n - k)) : ℝ) : ℂ)) t).re
  let fl := (List.range n).map filtered
  let p_idx := min ⌊0.02 * (n : ℝ) + 1 / 2⌋₊ (n - 1)
  let baseline := (fl.mergeSort (fun a b => decide (a ≤ b))).getD p_idx 0
  fl.map (fun x => x - baseline)

/-- `BandpassFilter::apply` (`filter.rs` 164-232).  Returns the flag
and the (possibly filtered) trace. -/
def BandpassFilter.apply (f : BandpassFilter) (trace : List ℝ) : Bool × List ℝ :=
  if f.enabled = false ∨ f.valid = false ∨ trace.length < 8 then (false, trace)
  else (true, bandpass_pipeline f trace)

/-- Little-endian `u32` read at byte offset `p` (`read_u32_le`,
`lib.rs` 570-574; the cursor position is made explicit). -/
def readU32le (blob : List UInt8) (p : ℕ) : ℕ :=
  (blob.getD p 0).toNat + 256 * (blob.getD (p + 1) 0).toNat
    + 65536 * (blob.getD (p + 2) 0).toNat + 16777216 * (blob.getD (p + 3) 0).toNat

/-- Little-endian 8-byte read at byte offset `p` (`read_f64_le`,
`lib.rs` 582-586, before the IEEE-754 interpretation). -/
def readU64le (blob : List UInt8) (p : ℕ) : ℕ :=
  readU32le blob p + 4294967296 * readU32le blob (p + 4)

/-- IEEE-754 binary32 value of a 32-bit word (`f32::from_le_bytes`).
Exponent `255` (infinities / NaNs) is mapped by the same formula to a
huge finite real; no claim under study depends on such blobs. -/
def decodeF32 (bits : ℕ) : ℝ :=
  let sign : ℕ := bits / 2 ^ 31 % 2
  let expo : ℕ := bits / 2 ^ 23 % 2 ^ 8
  let frac : ℕ := bits % 2 ^ 23
  let mag : ℝ :=
    if expo = 0 then ((frac : ℝ) / 2 ^ 23) * (2 : ℝ) ^ (-(126 : ℤ))
    else (1 + (frac : ℝ) / 2 ^ 23) * (2 : ℝ) ^ ((expo : ℤ) - 127)
  if sign = 1 then -mag else mag

/-- IEEE-754 binary64 value of a 64-bit word (`f64::from_le_bytes`),
with the same caveat as `decodeF32` for exponent `2047`. -/
def decodeF64 (bits : ℕ) : ℝ :=
  let sign : ℕ := bits / 2 ^ 63 % 2
  let expo : ℕ := bits / 2 ^ 52 % 2 ^ 11
  let frac : ℕ := bits % 2 ^ 52
  let mag : ℝ :=
    if expo = 0 then ((frac : ℝ) / 2 ^ 52) * (2 : ℝ) ^ (-(1022 : ℤ))
    else (1 + (frac : ℝ) / 2 ^ 52) * (2 : ℝ) ^ ((expo : ℤ) - 1023)
  if sign = 1 then -mag else mag

/-- The `Solver` struct (`lib.rs` 20-66).  Signal buffers are total
functions `ℕ → ℝ`; `active_len` delimits the live region exactly as in
the source.  `prev_objective` is `EReal` so that `f64::INFINITY` is
`⊤`.  The FFT planner and scratch buffers are omitted (they carry no
observable state); the cached kernel spectrum and its conjugate are
kept, since their consistency is part of the claims. -/
structure SolverState where
  tau_rise : ℝ
  tau_decay : ℝ
  lambda : ℝ
  fs : ℝ
  trace : ℕ → ℝ
  solution : ℕ → ℝ
  solution_prev : ℕ → ℝ
  gradient : ℕ → ℝ
  reconvolution : ℕ → ℝ
  residual_buf : ℕ → ℝ
  kernel : List ℝ
  iteration : ℕ
  t_fista : ℝ
  converged : Bool
  active_len : ℕ
  prev_objective : EReal
  tolerance : ℝ
  lipschitz_constant : ℝ
  baseline : ℝ
  kernel_dc_gain : ℝ
  fft_len : ℕ
  kernel_fft : ℕ → ℂ
  kernel_conj_fft : ℕ → ℂ
  reconvolution_stale : Bool
  bandpass : BandpassFilter

/-- `prepare_kernel_fft` (`lib.rs` 337-360): recompute the cached
kernel spectrum and its elementwise conjugate at the current padded
length. -/
def prepare_kernel_fft (s : SolverState) : SolverState :=
  { s with kernel_fft := dftSpec s.kernel s.fft_len,
           kernel_conj_fft := fun i => (starRingEnd ℂ) (dftSpec s.kernel s.fft_len i) }

/-- `ensure_fft_buffers` (`lib.rs` 285-334): no-op when there is no
work or the padded length is unchanged; otherwise adopt the new padded
length and recompute the kernel spectrum.  Buffer growth is immaterial
in the functional model. -/
def ensure_fft_buffers (s : SolverState) : SolverState :=
  if s.active_len = 0 ∨ s.kernel.length = 0 then s
  else
    let padded_len := nextPow2 (s.active_len + s.kernel.length - 1)
    if padded_len = s.fft_len then s
    else prepare_kernel_fft { s with fft_len := padded_len }

/-- `Solver::set_trace` (`lib.rs` 147-180). -/
def set_trace (s : SolverState) (tr : List ℝ) : SolverState :=
  let n := tr.length
  ensure_fft_buffers
    { s with
      active_len := n,
      trace := fun i => if i < n then tr.getD i 0 else s.trace i,
      solution := fun i => if i < n then 0 else s.solution i,
      solution_prev := fun i => if i < n then 0 else s.solution_prev i,
      gradient := fun i => if i < n then 0 else s.gradient i,
      reconvolution := fun i => if i < n then 0 else s.reconvolution i,
      residual_buf := fun i => if i < n then 0 else s.residual_buf i,
      iteration := 0, t_fista := 1, converged := false,
      prev_objective := ⊤, baseline := 0, reconvolution_stale := true }

/-- `Solver::set_params` (`lib.rs` 119-143). -/
def set_params (s : SolverState) (tau_rise tau_decay lambda fs : ℝ) : SolverState :=
  let kernel := build_kernel tau_rise tau_decay fs
  let base : SolverState :=
    { s with
      tau_rise := tau_rise, tau_decay := tau_decay, lambda := lambda, fs := fs,
      kernel := kernel,
      lipschitz_constant := compute_lipschitz kernel,
      kernel_dc_gain := kernel.sum,
      bandpass := update_cutoffs s.bandpass tau_rise tau_decay fs }
  if 0 < s.fft_len ∧ 0 < s.active_len then
    if s.active_len + kernel.length - 1 ≤ s.fft_len then prepare_kernel_fft base
    else { base with fft_len := 0 }
  else base

/-- `Solver::reset_momentum` (`lib.rs` 245-251). -/
def reset_momentum (s : SolverState) : SolverState :=
  { s with
    t_fista := 1,
    solution_prev := fun i => if i < s.active_len then s.solution i else s.solution_prev i }

/-- `Solver::effective_lambda` (`lib.rs` 253-256): `lambda * G_dc`. -/
def effective_lambda (s : SolverState) : ℝ := s.lambda * s.kernel_dc_gain

/-- `Solver::load_state` (`lib.rs` 531-562).  The sequential cursor
reads are written with their explicit byte offsets. -/
def load_state (s : SolverState) (state : List UInt8) : SolverState :=
  if state = [] then s
  else if state.length < 24 then s
  else
    let saved_len := readU32le state 0
    let expected_size := 4 + 8 + 4 + 8 + 2 * saved_len * 4
    if state.length ≠ expected_size ∨ saved_len ≠ s.active_len then s
    else
      { s with
        t_fista := decodeF64 (readU64le state 4),
        iteration := readU32le state 12,
        baseline := decodeF64 (readU64le state 16),
        converged := false,
        prev_objective := ⊤,
        solution := fun i => if i < saved_len
          then decodeF32 (readU32le state (24 + 4 * i)) else s.solution i,
        solution_prev := fun i => if i < saved_len
          then decodeF32 (readU32le state (24 + 4 * saved_len + 4 * i)) else s.solution_prev i }

/-- `Solver::compute_reconvolution` (`lib.rs` 446-485): FFT path when
the infrastructure is initialised, time-domain fallback otherwise;
both recompute the baseline and clear the stale flag. -/
def compute_reconvolution (s : SolverState) : SolverState :=
  if s.active_len = 0 then s
  else
    let reconv := if 0 < s.fft_len
      then fun t => if t < s.active_len
        then fftSpecConvolve s.fft_len s.kernel_fft s.active_len s.solution t
        else s.reconvolution t
      else fun t => if t < s.active_len
        then time_domain_reconv s.kernel s.solution t
        else s.reconvolution t
    let b := (∑ i ∈ Finset.range s.active_len, (s.trace i - reconv i)) / (s.active_len : ℝ)
    { s with reconvolution := reconv, baseline := b, reconvolution_stale := false }

/-- `Solver::apply_filter` (`lib.rs` 498-501). -/
def apply_filter (s : SolverState) : SolverState × Bool :=
  let r := s.bandpass.apply ((List.range s.active_len).map s.trace)
  ({ s with trace := fun i => if i < s.active_len then r.2.getD i 0 else s.trace i }, r.1)

/-- `Solver::set_filter_enabled` (`lib.rs` 489-491). -/
def set_filter_enabled (s : SolverState) (b : Bool) : SolverState :=
  { s with bandpass := { s.bandpass with enabled := b } }

/-- `Solver::new` (`lib.rs` 72-116).  The constructor first fills the
struct with placeholders (`lipschitz = 1.0`, `G_dc = 1.0`) and then
immediately overwrites kernel, Lipschitz constant and DC gain; the
model records the net result. -/
def Solver.new : SolverState :=
  let kernel := build_kernel 0.02 0.4 30
  { tau_rise := 0.02, tau_decay := 0.4, lambda := 0.01, fs := 30,
    trace := fun _ => 0, solution := fun _ => 0, solution_prev := fun _ => 0,
    gradient := fun _ => 0, reconvolution := fun _ => 0, residual_buf := fun _ => 0,
    kernel := kernel, iteration := 0, t_fista := 1, converged := false, active_len := 0,
    prev_objective := ⊤, tolerance := 1e-6,
    lipschitz_constant := compute_lipschitz kernel,
    baseline := 0, kernel_dc_gain := kernel.sum,
    fft_len := 0, kernel_fft := fun _ => 0, kernel_conj_fft := fun _ => 0,
    reconvolution_stale := true, bandpass := BandpassFilter.new }

/-- One iteration of the `for` loop in `Solver::step_batch`
(`fista.rs` 30-130), with the loop-invariant `step_size` and
`threshold` passed in (the source computes them once before the
loop). -/
def stepBody (step_size threshold : ℝ) (s : SolverState) : SolverState :=
  let n := s.active_len
  let reconv := fun i => if i < n
    then fftSpecConvolve s.fft_len s.kernel_fft n s.solution_prev i
    else s.reconvolution i
  let b := (∑ i ∈ Finset.range n, (s.trace i - reconv i)) / (n : ℝ)
  let res := fun i => if i < n then reconv i + b - s.trace i else s.residual_buf i
  let grad := fun i => if i < n
    then fftSpecConvolve s.fft_len s.kernel_conj_fft n res i
    else s.gradient i
  let saved := fun i => if i < n then s.solution i else res i
  let sol := fun i => if i < n
    then max (s.solution_prev i - step_size * grad i - threshold) 0
    else s.solution i
  let iter := s.iteration + 1
  let diff_sq := ∑ i ∈ Finset.range n, (sol i - saved i) * (sol i - saved i)
  let xk_sq := ∑ i ∈ Finset.range n, saved i * saved i
  let rel_change := Real.sqrt (diff_sq / (xk_sq + 1e-20))
  let dot := ∑ i ∈ Finset.range n, (s.solution_prev i - sol i) * (sol i - saved i)
  let t1 := if 1 < iter ∧ 0 < dot then 1 else s.t_fista
  let t_new := (1 + Real.sqrt (1 + 4 * t1 * t1)) / 2
  let momentum := (t1 - 1) / t_new
  let prev := fun i => if i < n
    then max (sol i + momentum * (sol i - saved i)) 0
    else s.solution_prev i
  let conv := if 5 < iter ∧ rel_change < s.tolerance then true else s.converged
  { s with
    reconvolution := reconv, baseline := b, residual_buf := saved,
    gradient := grad, solution := sol, iteration := iter, t_fista := t_new,
    solution_prev := prev, converged := conv, reconvolution_stale := true }

/-- The `for _ in 0..n_steps` loop of `step_batch` with its
early-return on convergence. -/
def stepLoop (step_size threshold : ℝ) : ℕ → SolverState → SolverState
  | 0, s => s
  | k + 1, s =>
    if s.converged then s else stepLoop step_size threshold k (stepBody step_size threshold s)

/-- `Solver::step_batch` (`fista.rs` 20-133). -/
def step_batch (s : SolverState) (n_steps : ℕ) : SolverState :=
  if s.active_len = 0 then { s with converged := true }
  else stepLoop (1 / s.lipschitz_constant) (1 / s.lipschitz_constant * effective_lambda s)
    n_steps s

/-- States reachable through the public API (`new`, `set_params`,
`set_trace`, `step_batch`, `reset_momentum`, `load_state`,
`apply_filter`, `set_filter_enabled`, and the lazy reconvolution of the
getters). -/
inductive Reachable : SolverState → Prop where
  | init : Reachable Solver.new
  | params (s : SolverState) (a b c d : ℝ) : Reachable s → Reachable (set_params s a b c d)
  | traced (s : SolverState) (tr : List ℝ) : Reachable s → Reachable (set_trace s tr)
  | batch (s : SolverState) (k : ℕ) : Reachable s → Reachable (step_batch s k)
  | momentum (s : SolverState) : Reachable s → Reachable (reset_momentum s)
  | load (s : SolverState) (blob : List UInt8) : Reachable s → Reachable (load_state s blob)
  | filtered (s : SolverState) : Reachable s → Reachable (apply_filter s).1
  | filterEnabled (s : SolverState) (b : Bool) : Reachable s → Reachable (set_filter_enabled s b)
  | reconv (s : SolverState) : Reachable s → Reachable (compute_reconvolution s)

theorem foldl_max_init_le (l : List ℝ) (a : ℝ) : a ≤ l.foldl max a := by
  induction l generalizing a with
  | nil => exact le_refl a
  | cons b l ih => exact le_trans (le_max_left a b) (ih (max a b))

theorem le_foldl_max (l : List ℝ) (a x : ℝ) (hx : x ∈ l) : x ≤ l.foldl max a := by
  induction l generalizing a with
  | nil => cases hx
  | cons b l ih =>
    rcases List.mem_cons.mp hx with rfl | hx
    · exact le_trans (le_max_right a x) (foldl_max_init_le l (max a x))
    · exact ih (max a b) hx

theorem foldl_max_le (l : List ℝ) (c : ℝ) (h : ∀ x ∈ l, x ≤ c) :
    ∀ a, a ≤ c → l.foldl max a ≤ c := by
  induction l with
  | nil => exact fun a hac => hac
  | cons b l ih =>
    intro a hac
    exact ih (fun x hx => h x (List.mem_cons_of_mem b hx)) (max a b)
      (max_le hac (h b (List.mem_cons_self b l)))

theorem foldl_max_mem (l : List ℝ) (a : ℝ) : l.foldl max a = a ∨ l.foldl max a ∈ l := by
  induction l generalizing a with
  | nil => exact Or.inl rfl
  | cons b l ih =>
    rcases ih (max a b) with h | h
    · rcases max_choice a b with hab | hab
      · exact Or.inl (by rw [List.foldl_cons, h, hab])
      · exact Or.inr (by rw [List.foldl_cons, h, hab]; exact List.mem_cons_self b l)
    · exact Or.inr (List.mem_cons_of_mem b h)

theorem getD_range_map (f : ℕ → ℝ) (m i : ℕ) (h : i < m) :
    ((List.range m).map f).getD i 0 = f i := by
  rw [List.getD_eq_getElem?_getD]
  simp [List.getElem?_map, List.getElem?_range h]

/-- **C2.** For every kernel `K` of length `m ≥ 1` and source of length
`n ≥ 1`, with FFT buffers prepared at the padded power-of-two length
`N = nextPow2 (n + m - 1)`, the forward FFT convolution produces on its
first `n` samples exactly the causal linear convolution
`out[t] = Σ_{k ∈ 0..min t (m-1)} K[k]·src[t-k]` (the circular
convolution at padded length `N` agrees with the linear one there). -/
theorem convolve_forward_fft_linear (K : List ℝ) (u : ℕ → ℝ) (n : ℕ)
    (hm : 0 < K.length) (hn : 0 < n) :
    ∀ t < n,
      fftSpecConvolve (nextPow2 (n + K.length - 1)) (dftSpec K (nextPow2 (n + K.length - 1)))
          n u t
        = ∑ k ∈ Finset.Icc 0 (min t (K.length - 1)), K.getD k 0 * u (t - k) := by
  intro t ht
  have hle := le_nextPow2 (n + K.length - 1)
  rw [fft_forward_eq_linear K u n _ t hm (by omega) (nextPow2_pos _) ht]
  have hset : Finset.Icc 0 (min t (K.length - 1)) = Finset.range (min K.length (t + 1)) := by
    ext x
    simp only [Finset.mem_Icc, Finset.mem_range]
    omega
  rw [hset]

theorem convolve_forward_fft_linear_witness :
    0 < ([0, 1] : List ℝ).length ∧ 0 < 3 ∧ 1 < 3 ∧
      fftSpecConvolve (nextPow2 (3 + ([0, 1] : List ℝ).length - 1))
          (dftSpec [0, 1] (nextPow2 (3 + ([0, 1] : List ℝ).length - 1)))
          3 (fun i : ℕ => (i : ℝ)) 1
        = ∑ k ∈ Finset.Icc 0 (min 1 (([0, 1] : List ℝ).length - 1)),
            ([0, 1] : List ℝ).getD k 0 * ((1 - k : ℕ) : ℝ) :=
  ⟨by norm_num, by norm_num, by norm_num,
    convolve_forward_fft_linear [0, 1] (fun i : ℕ => (i : ℝ)) 3 (by norm_num) (by norm_num)
      1 (by norm_num)⟩

/-- **C3.** For every kernel `K` (length `≥ 1`), every signal length
`n ≥ 1` and all vectors `u`, `v`, the forward and adjoint FFT
convolutions satisfy the adjoint identity `⟨K∗u, v⟩ = ⟨u, K^T∗v⟩`
exactly over real arithmetic, where the adjoint result is the
correlation `(K^T v)[t] = Σ_k K[k]·v[t+k]`. -/
theorem adjoint_identity (K : List ℝ) (u v : ℕ → ℝ) (n : ℕ)
    (hm : 0 < K.length) (hn : 0 < n) :
    (∀ t < n,
      fftSpecConvolve (nextPow2 (n + K.length - 1))
          (fun i => (starRingEnd ℂ) (dftSpec K (nextPow2 (n + K.length - 1)) i)) n v t
        = ∑ k ∈ Finset.range (min K.length (n - t)), K.getD k 0 * v (t + k))
    ∧ ∑ t ∈ Finset.range n,
          fftSpecConvolve (nextPow2 (n + K.length - 1))
            (dftSpec K (nextPow2 (n + K.length - 1))) n u t * v t
      = ∑ t ∈ Finset.range n,
          u t * fftSpecConvolve (nextPow2 (n + K.length - 1))
            (fun i => (starRingEnd ℂ) (dftSpec K (nextPow2 (n + K.length - 1)) i)) n v t := by
  have hle := le_nextPow2 (n + K.length - 1)
  have hadj : ∀ t < n,
      fftSpecConvolve (nextPow2 (n + K.length - 1))
          (fun i => (starRingEnd ℂ) (dftSpec K (nextPow2 (n + K.length - 1)) i)) n v t
        = ∑ k ∈ Finset.range (min K.length (n - t)), K.getD k 0 * v (t + k) :=
    fun t ht => fft_adjoint_eq_corr K v n _ t hm (by omega) (nextPow2_pos _) ht
  refine ⟨hadj, ?_⟩
  have hfwd : ∀ t ∈ Finset.range n,
      fftSpecConvolve (nextPow2 (n + K.length - 1))
            (dftSpec K (nextPow2 (n + K.length - 1))) n u t * v t
        = (∑ k ∈ Finset.range (min K.length (t + 1)), K.getD k 0 * u (t - k)) * v t := by
    intro t ht
    rw [fft_forward_eq_linear K u n _ t hm (by omega) (nextPow2_pos _) (Finset.mem_range.mp ht)]
  have hadj' : ∀ t ∈ Finset.range n,
      u t * fftSpecConvolve (nextPow2 (n + K.length - 1))
            (fun i => (starRingEnd ℂ) (dftSpec K (nextPow2 (n + K.length - 1)) i)) n v t
        = u t * ∑ k ∈ Finset.range (min K.length (n - t)), K.getD k 0 * v (t + k) := by
    intro t ht
    rw [hadj t (Finset.mem_range.mp ht)]
  rw [Finset.sum_congr rfl hfwd, Finset.sum_congr rfl hadj']
  exact conv_corr_sum_swap K u v n

theorem adjoint_identity_witness :
    0 < ([0, 1] : List ℝ).length ∧ 0 < 2 ∧
      ((∀ t < 2,
        fftSpecConvolve (nextPow2 (2 + ([0, 1] : List ℝ).length - 1))
            (fun i => (starRingEnd ℂ)
              (dftSpec [0, 1] (nextPow2 (2 + ([0, 1] : List ℝ).length - 1)) i))
            2 (fun i : ℕ => (i : ℝ) + 1) t
          = ∑ k ∈ Finset.range (min ([0, 1] : List ℝ).length (2 - t)),
              ([0, 1] : List ℝ).getD k 0 * ((t + k : ℕ) + 1 : ℝ))
      ∧ ∑ t ∈ Finset.range 2,
            fftSpecConvolve (nextPow2 (2 + ([0, 1] : List ℝ).length - 1))
              (dftSpec [0, 1] (nextPow2 (2 + ([0, 1] : List ℝ).length - 1)))
              2 (fun i : ℕ => (2 : ℝ) * i) t * ((t : ℝ) + 1)
        = ∑ t ∈ Finset.range 2,
            (2 : ℝ) * t * fftSpecConvolve (nextPow2 (2 + ([0, 1] : List ℝ).length - 1))
              (fun i => (starRingEnd ℂ)
                (dftSpec [0, 1] (nextPow2 (2 + ([0, 1] : List ℝ).length - 1)) i))
              2 (fun i : ℕ => (i : ℝ) + 1) t) :=
  ⟨by norm_num, by norm_num,
    adjoint_identity [0, 1] (fun i : ℕ => (2 : ℝ) * i) (fun i : ℕ => (i : ℝ) + 1) 2
      (by norm_num) (by norm_num)⟩

/-- **C10.** `compute_reconvolution` contains two algorithms: when the
FFT infrastructure is uninitialised (`fft_len = 0`) the getters fall
back to the direct time-domain causal convolution; when the FFT path
runs at the properly padded length with the spectrum of the current
kernel, it produces the same values `K*x` on the first `n_active`
samples (exactly, over real arithmetic), so the result of
`get_reconvolution` does not depend on which path ran. -/
theorem compute_reconvolution_path_agreement (s : SolverState)
    (hm : 0 < s.kernel.length) :
    (s.fft_len = 0 →
      ∀ t < s.active_len,
        (compute_reconvolution s).reconvolution t = time_domain_reconv s.kernel s.solution t)
    ∧ (s.fft_len = nextPow2 (s.active_len + s.kernel.length - 1) →
        s.kernel_fft = dftSpec s.kernel s.fft_len →
        ∀ t < s.active_len,
          (compute_reconvolution s).reconvolution t
            = time_domain_reconv s.kernel s.solution t) := by
  constructor
  · intro hfft t ht
    have hn0 : ¬ s.active_len = 0 := by omega
    unfold compute_reconvolution
    rw [if_neg hn0]
    simp only [hfft, lt_irrefl, if_false, if_pos ht]
  · intro hfft hspec t ht
    have hn0 : ¬ s.active_len = 0 := by omega
    have hpos : 0 < s.fft_len := hfft ▸ nextPow2_pos _
    unfold compute_reconvolution
    rw [if_neg hn0]
    simp only [if_pos hpos, if_pos ht]
    rw [hspec, hfft]
    have hle := le_nextPow2 (s.active_len + s.kernel.length - 1)
    rw [fft_forward_eq_linear s.kernel s.solution s.active_len _ t hm (by omega)
      (nextPow2_pos _) ht]
    rfl

/-- A concrete solver state with uninitialised FFT infrastructure
(`fft_len = 0`), used to instantiate theorems at explicit inputs. -/
def demoStateA : SolverState :=
  { tau_rise := 1, tau_decay := 2, lambda := 0, fs := 1,
    trace := fun _ => 0, solution := fun i => if i = 0 then 1 else 0,
    solution_prev := fun _ => 0,
    gradient := fun _ => 0, reconvolution := fun _ => 0, residual_buf := fun _ => 0,
    kernel := [0, 1], iteration := 0, t_fista := 1, converged := false, active_len := 2,
    prev_objective := ⊤, tolerance := 1e-6, lipschitz_constant := 1,
    baseline := 0, kernel_dc_gain := 1, fft_len := 0,
    kernel_fft := fun _ => 0, kernel_conj_fft := fun _ => 0,
    reconvolution_stale := true, bandpass := BandpassFilter.new }

theorem compute_reconvolution_path_agreement_witness :
    0 < demoStateA.kernel.length ∧
      ((demoStateA.fft_len = 0 →
        ∀ t < demoStateA.active_len,
          (compute_reconvolution demoStateA).reconvolution t
            = time_domain_reconv demoStateA.kernel demoStateA.solution t)
      ∧ (demoStateA.fft_len
            = nextPow2 (demoStateA.active_len + demoStateA.kernel.length - 1) →
          demoStateA.kernel_fft = dftSpec demoStateA.kernel demoStateA.fft_len →
          ∀ t < demoStateA.active_len,
            (compute_reconvolution demoStateA).reconvolution t
              = time_domain_reconv demoStateA.kernel demoStateA.solution t)) :=
  ⟨by simp [demoStateA], compute_reconvolution_path_agreement demoStateA (by simp [demoStateA])⟩

/-- Step 1 of one FISTA iteration as a function of the pre-state: the
forward convolution `K * y_ext` evaluated through the cached kernel
spectrum (the gradient is evaluated at the extrapolated point
`y_ext = solution_prev`). -/
def forwardAtY (s : SolverState) : ℕ → ℝ :=
  fftSpecConvolve s.fft_len s.kernel_fft s.active_len s.solution_prev

/-- Step 2: the joint baseline `b = mean(y - K*y_ext)`. -/
def baselineAtY (s : SolverState) : ℝ :=
  (∑ i ∈ Finset.range s.active_len, (s.trace i - forwardAtY s i)) / (s.active_len : ℝ)

/-- Step 3: the residual `K*y_ext + b - y`. -/
def residualAtY (s : SolverState) : ℕ → ℝ :=
  fun i => forwardAtY s i + baselineAtY s - s.trace i

/-- Step 4: the gradient `K^T * (K*y_ext + b - y)` evaluated through
the cached conjugate spectrum. -/
def gradientAtY (s : SolverState) : ℕ → ℝ :=
  fftSpecConvolve s.fft_len s.kernel_conj_fft s.active_len (residualAtY s)

theorem fftSpecConvolve_congr (N : ℕ) (spec : ℕ → ℂ) (n : ℕ) (u w : ℕ → ℝ)
    (h : ∀ j < n, u j = w j) (t : ℕ) :
    fftSpecConvolve N spec n u t = fftSpecConvolve N spec n w t := by
  unfold fftSpecConvolve
  have hfun : (fun j => if j < n then ((u j : ℝ) : ℂ) else 0)
      = (fun j => if j < n then ((w j : ℝ) : ℂ) else 0) := by
    funext j
    by_cases hj : j < n
    · simp [hj, h j hj]
    · simp [hj]
  rw [hfun]

/-- **C1.** Each iteration inside `step_batch` computes the new
iterate by the elementwise proximal step
`x[i] = max(0, y_ext[i] - α·g[i] - θ)` for `i < n_active`, where
`y_ext` is the extrapolated point at which the gradient `g` was
evaluated, `α = 1/L`, and `θ = α·λ·G_dc`. -/
theorem step_batch_prox_formula (s : SolverState) :
    ∀ i < s.active_len,
      (stepBody (1 / s.lipschitz_constant)
          (1 / s.lipschitz_constant * effective_lambda s) s).solution i
        = max 0 (s.solution_prev i
            - 1 / s.lipschitz_constant * gradientAtY s i
            - 1 / s.lipschitz_constant * (s.lambda * s.kernel_dc_gain)) := by
  intro i hi
  unfold stepBody
  simp only [if_pos hi]
  have hb : (∑ j ∈ Finset.range s.active_len,
        (s.trace j - (if j < s.active_len
          then fftSpecConvolve s.fft_len s.kernel_fft s.active_len s.solution_prev j
          else s.reconvolution j))) / (s.active_len : ℝ) = baselineAtY s := by
    unfold baselineAtY forwardAtY
    congr 1
    refine Finset.sum_congr rfl fun j hj => ?_
    rw [if_pos (Finset.mem_range.mp hj)]
  have hgrad : fftSpecConvolve s.fft_len s.kernel_conj_fft s.active_len
      (fun j => if j < s.active_len
        then (if j < s.active_len
            then fftSpecConvolve s.fft_len s.kernel_fft s.active_len s.solution_prev j
            else s.reconvolution j)
          + (∑ j ∈ Finset.range s.active_len,
              (s.trace j - (if j < s.active_len
                then fftSpecConvolve s.fft_len s.kernel_fft s.active_len s.solution_prev j
                else s.reconvolution j))) / (s.active_len : ℝ)
          - s.trace j
        else s.residual_buf j) i
      = gradientAtY s i := by
    unfold gradientAtY
    refine fftSpecConvolve_congr _ _ _ _ _ (fun j hj => ?_) i
    rw [if_pos hj, if_pos hj, hb]
    unfold residualAtY forwardAtY
    rfl
  rw [hgrad, max_comm]
  unfold effective_lambda
  rfl

theorem step_batch_prox_formula_witness :
    0 < demoStateA.active_len ∧
      (stepBody (1 / demoStateA.lipschitz_constant)
          (1 / demoStateA.lipschitz_constant * effective_lambda demoStateA)
          demoStateA).solution 0
        = max 0 (demoStateA.solution_prev 0
            - 1 / demoStateA.lipschitz_constant * gradientAtY demoStateA 0
            - 1 / demoStateA.lipschitz_constant
              * (demoStateA.lambda * demoStateA.kernel_dc_gain)) :=
  ⟨by simp [demoStateA], step_batch_prox_formula demoStateA 0 (by simp [demoStateA])⟩

theorem neg_log_1em6 : -Real.log 1e-6 = 6 * Real.log 10 := by
  have h : (1e-6 : ℝ) = (10 : ℝ) ^ (-6 : ℤ) := by norm_num
  rw [h, Real.log_zpow]
  push_cast
  ring

theorem log_ten_pos : 0 < Real.log 10 := Real.log_pos (by norm_num)

theorem log_ten_le_nine : Real.log 10 ≤ 9 := by
  have := Real.log_le_sub_one_of_pos (by norm_num : (0 : ℝ) < 10)
  linarith

theorem two_lt_log_ten : 2 < Real.log 10 := by
  rw [Real.lt_log_iff_exp_lt (by norm_num : (0 : ℝ) < 10)]
  have h1 : Real.exp 1 < 2.7182818286 := Real.exp_one_lt_d9
  have h2 : Real.exp 2 = Real.exp 1 * Real.exp 1 := by
    rw [← Real.exp_add]
    norm_num
  nlinarith [Real.exp_pos 1]

theorem log_ten_lt_83 : Real.log 10 < 8 / 3 := by
  rw [Real.log_lt_iff_lt_exp (by norm_num : (0 : ℝ) < 10)]
  have h8 : Real.exp (8 / 3) ^ (3 : ℕ) = Real.exp 8 := by
    rw [← Real.exp_nat_mul]
    norm_num
  have hgt : (2.7182818283 : ℝ) < Real.exp 1 := Real.exp_one_gt_d9
  have h1000 : (1000 : ℝ) < Real.exp 8 := by
    have hpow : Real.exp 8 = Real.exp 1 ^ (8 : ℕ) := by
      rw [← Real.exp_nat_mul]
      norm_num
    rw [hpow]
    calc (1000 : ℝ) < 2.7182818283 ^ (8 : ℕ) := by norm_num
      _ < Real.exp 1 ^ (8 : ℕ) := pow_lt_pow_left hgt (by norm_num) (by norm_num)
  have hcube : (10 : ℝ) ^ (3 : ℕ) < Real.exp (8 / 3) ^ (3 : ℕ) := by
    rw [h8]
    norm_num
    linarith
  exact lt_of_pow_lt_pow_left 3 (le_of_lt (Real.exp_pos _)) hcube

theorem build_kernel_length (tau_rise tau_decay fs : ℝ) :
    (build_kernel tau_rise tau_decay fs).length
      = max ⌈(-Real.log 1e-6) * tau_decay / (1 / fs)⌉₊ 2 := by
  simp only [build_kernel]
  split
  · rw [List.length_map, List.length_map, List.length_range]
  · rw [List.length_map, List.length_range]

/-- **C4 (amended).** For `0 < tau_rise < tau_decay` and `fs > 0`,
`build_kernel` returns a vector of length exactly
`max(2, ceil(-ln(1e-6)·tau_decay/dt))` with `dt = 1/fs`, whose first
element is `0`, whose maximum element is exactly `1`, and all of whose
elements are non-negative.  (The original claim quantifies over all
positive `tau_rise`, `tau_decay`; with `tau_rise ≥ tau_decay` the
unnormalised values are non-positive, the peak stays `0`, the
normalisation is skipped, and the kernel has negative entries and
maximum `0` — see the counterexample.) -/
theorem build_kernel_props (tau_rise tau_decay fs : ℝ)
    (h1 : 0 < tau_rise) (h2 : tau_rise < tau_decay) (h3 : 0 < fs) :
    (build_kernel tau_rise tau_decay fs).length
        = max 2 ⌈(-Real.log 1e-6) * tau_decay / (1 / fs)⌉₊
    ∧ (build_kernel tau_rise tau_decay fs).getD 0 0 = 0
    ∧ (∀ x ∈ build_kernel tau_rise tau_decay fs, 0 ≤ x)
    ∧ (∀ x ∈ build_kernel tau_rise tau_decay fs, x ≤ 1)
    ∧ (1 : ℝ) ∈ build_kernel tau_rise tau_decay fs := by
  have htd : 0 < tau_decay := lt_trans h1 h2
  have hdt : (0 : ℝ) < 1 / fs := by positivity
  set m : ℕ := max ⌈(-Real.log 1e-6) * tau_decay / (1 / fs)⌉₊ 2 with hm
  set f : ℕ → ℝ := fun i =>
    Real.exp (-((i : ℝ) * (1 / fs)) / tau_decay)
      - Real.exp (-((i : ℝ) * (1 / fs)) / tau_rise) with hf
  set vals : List ℝ := (List.range m).map f with hvals
  set peak : ℝ := vals.foldl max 0 with hpeak
  have hm2 : 2 ≤ m := le_max_right _ _
  have hf_nonneg : ∀ i : ℕ, 0 ≤ f i := by
    intro i
    have hnum : (0 : ℝ) ≤ (i : ℝ) * (1 / fs) := by positivity
    have hle : -((i : ℝ) * (1 / fs)) / tau_rise ≤ -((i : ℝ) * (1 / fs)) / tau_decay := by
      rw [neg_div, neg_div, neg_le_neg_iff]
      exact div_le_div_of_nonneg_left hnum h1 h2.le
    simpa [hf] using sub_nonneg.mpr (Real.exp_le_exp.mpr hle)
  have hf1_pos : 0 < f 1 := by
    have hlt : -((1 : ℝ) * (1 / fs)) / tau_rise < -((1 : ℝ) * (1 / fs)) / tau_decay := by
      rw [neg_div, neg_div, neg_lt_neg_iff]
      exact div_lt_div_of_pos_left (by positivity) h1 h2
    have hexp := Real.exp_lt_exp.mpr hlt
    simp only [hf, Nat.cast_one]
    linarith
  have h1mem : f 1 ∈ vals :=
    List.mem_map.mpr ⟨1, List.mem_range.mpr (by omega), rfl⟩
  have hpeak_pos : 0 < peak := lt_of_lt_of_le hf1_pos (le_foldl_max vals 0 (f 1) h1mem)
  have hval_le_peak : ∀ x ∈ vals, x ≤ peak := fun x hx => le_foldl_max vals 0 x hx
  have hpeak_mem : peak ∈ vals := by
    rcases foldl_max_mem vals 0 with h | h
    · have hz : peak = 0 := hpeak.trans h
      rw [hz] at hpeak_pos
      exact absurd hpeak_pos (lt_irrefl 0)
    · exact h
  have hbk : build_kernel tau_rise tau_decay fs = vals.map (fun v => v / peak) := by
    simp only [build_kernel]
    rw [if_pos hpeak_pos]
  refine ⟨?_, ?_, ?_, ?_, ?_⟩
  · rw [hbk, List.length_map, hvals, List.length_map, List.length_range, hm, Nat.max_comm]
  · rw [hbk, hvals, List.map_map, getD_range_map _ m 0 (by omega)]
    have hf0 : f 0 = 0 := by
      simp [hf]
    simp [Function.comp, hf0]
  · intro x hx
    rw [hbk] at hx
    obtain ⟨v, hv, rfl⟩ := List.mem_map.mp hx
    obtain ⟨i, _, rfl⟩ := List.mem_map.mp hv
    exact div_nonneg (hf_nonneg i) hpeak_pos.le
  · intro x hx
    rw [hbk] at hx
    obtain ⟨v, hv, rfl⟩ := List.mem_map.mp hx
    exact (div_le_one hpeak_pos).mpr (hval_le_peak v hv)
  · rw [hbk]
    exact List.mem_map.mpr ⟨peak, hpeak_mem, div_self hpeak_pos.ne'⟩

theorem build_kernel_props_witness :
    (0 : ℝ) < 1 ∧ (1 : ℝ) < 2 ∧ (0 : ℝ) < 1 ∧
      ((build_kernel 1 2 1).length = max 2 ⌈(-Real.log 1e-6) * 2 / (1 / 1)⌉₊
        ∧ (build_kernel 1 2 1).getD 0 0 = 0
        ∧ (∀ x ∈ build_kernel 1 2 1, 0 ≤ x)
        ∧ (∀ x ∈ build_kernel 1 2 1, x ≤ 1)
        ∧ (1 : ℝ) ∈ build_kernel 1 2 1) :=
  ⟨by norm_num, by norm_num, by norm_num,
    build_kernel_props 1 2 1 (by norm_num) (by norm_num) (by norm_num)⟩

/-- **C4 counterexample.** At `tau_rise = 2 > tau_decay = 1` (positive
parameters the claim covers, since it requires only positivity) the
kernel has a strictly negative entry at index `1` — so neither
"all elements non-negative" nor "maximum element 1.0" holds. -/
theorem build_kernel_cx :
    1 < (build_kernel 2 1 1).length ∧ (build_kernel 2 1 1).getD 1 0 < 0 := by
  have hlen : (build_kernel 2 1 1).length = max ⌈(-Real.log 1e-6) * 1 / (1 / 1)⌉₊ 2 :=
    build_kernel_length 2 1 1
  constructor
  · rw [hlen]
    omega
  · set f : ℕ → ℝ := fun i =>
      Real.exp (-((i : ℝ) * (1 / 1)) / 1) - Real.exp (-((i : ℝ) * (1 / 1)) / 2) with hf
    set m : ℕ := max ⌈(-Real.log 1e-6) * 1 / (1 / 1)⌉₊ 2 with hm
    have hf_nonpos : ∀ i : ℕ, f i ≤ 0 := by
      intro i
      have hle : -((i : ℝ) * (1 / 1)) / 1 ≤ -((i : ℝ) * (1 / 1)) / 2 := by
        rw [neg_div, neg_div, neg_le_neg_iff]
        exact div_le_div_of_nonneg_left (by positivity) (by norm_num) (by norm_num)
      have := Real.exp_le_exp.mpr hle
      simp only [hf]
      linarith
    have hpeak_le : ((List.range m).map f).foldl max 0 ≤ 0 := by
      refine foldl_max_le _ 0 ?_ 0 le_rfl
      intro x hx
      obtain ⟨i, _, rfl⟩ := List.mem_map.mp hx
      exact hf_nonpos i
    have hbk : build_kernel 2 1 1 = (List.range m).map f := by
      simp only [build_kernel]
      rw [if_neg (not_lt.mpr hpeak_le)]
    rw [hbk, getD_range_map f m 1 (by omega)]
    simp only [hf, Nat.cast_one]
    have he1 : -((1 : ℝ) * (1 / 1)) / 1 = -1 := by norm_num
    have he2 : -((1 : ℝ) * (1 / 1)) / 2 = -1 / 2 := by norm_num
    rw [he1, he2]
    have hlt : Real.exp (-1 : ℝ) < Real.exp (-1 / 2) := Real.exp_lt_exp.mpr (by norm_num)
    linarith

theorem ensure_fft_buffers_active_len (s : SolverState) :
    (ensure_fft_buffers s).active_len = s.active_len := by
  unfold ensure_fft_buffers
  split
  · rfl
  · dsimp only
    split
    · rfl
    · rfl

theorem ensure_fft_buffers_solution (s : SolverState) :
    (ensure_fft_buffers s).solution = s.solution := by
  unfold ensure_fft_buffers
  split
  · rfl
  · dsimp only
    split
    · rfl
    · rfl

theorem set_trace_active_len (s : SolverState) (tr : List ℝ) :
    (set_trace s tr).active_len = tr.length := by
  unfold set_trace
  rw [ensure_fft_buffers_active_len]

theorem set_trace_solution_zero (s : SolverState) (tr : List ℝ) :
    ∀ i < tr.length, (set_trace s tr).solution i = 0 := by
  intro i hi
  unfold set_trace
  rw [ensure_fft_buffers_solution]
  exact if_pos hi

/-- **C8.** `load_state` mutates solver state only when the blob is
non-empty, its total length is exactly `24 + 8·n` for the `n` stored in
its header, and that `n` equals the installed `n_active`; on every
other input it leaves the whole state unchanged (so right after
`set_trace` a failed load keeps the zeroed cold-start solution), and on
a successful load it installs the decoded fields and sets
`converged = false`, `prev_objective = +∞`. -/
theorem load_state_guard (s : SolverState) (blob : List UInt8) :
    (¬ (blob ≠ [] ∧ blob.length = 24 + 8 * readU32le blob 0
          ∧ readU32le blob 0 = s.active_len) →
      load_state s blob = s)
    ∧ ((blob ≠ [] ∧ blob.length = 24 + 8 * readU32le blob 0
          ∧ readU32le blob 0 = s.active_len) →
        (load_state s blob).converged = false
        ∧ (load_state s blob).prev_objective = ⊤
        ∧ (load_state s blob).t_fista = decodeF64 (readU64le blob 4)
        ∧ (load_state s blob).iteration = readU32le blob 12
        ∧ (load_state s blob).baseline = decodeF64 (readU64le blob 16)
        ∧ (∀ i < s.active_len,
            (load_state s blob).solution i = decodeF32 (readU32le blob (24 + 4 * i))
            ∧ (load_state s blob).solution_prev i
              = decodeF32 (readU32le blob (24 + 4 * s.active_len + 4 * i)))
        ∧ (load_state s blob).active_len = s.active_len
        ∧ (load_state s blob).trace = s.trace)
    ∧ (∀ tr : List ℝ, ¬ (blob ≠ [] ∧ blob.length = 24 + 8 * readU32le blob 0
          ∧ readU32le blob 0 = tr.length) →
        ∀ i < tr.length, (load_state (set_trace s tr) blob).solution i = 0) := by
  refine ⟨?_, ?_, ?_⟩
  · intro hG
    unfold load_state
    by_cases h1 : blob = []
    · rw [if_pos h1]
    · rw [if_neg h1]
      by_cases h2 : blob.length < 24
      · rw [if_pos h2]
      · rw [if_neg h2]
        dsimp only
        rw [if_pos]
        by_contra hcond
        push_neg at hcond
        exact hG ⟨h1, by omega, by omega⟩
  · intro hG
    obtain ⟨h1, h2, h3⟩ := hG
    unfold load_state
    rw [if_neg h1, if_neg (by omega : ¬ blob.length < 24)]
    dsimp only
    rw [if_neg (by push_neg; exact ⟨by omega, h3⟩)]
    refine ⟨rfl, rfl, rfl, rfl, rfl, ?_, rfl, rfl⟩
    intro i hi
    constructor
    · dsimp only
      rw [if_pos (by omega : i < readU32le blob 0)]
    · dsimp only
      rw [if_pos (by omega : i < readU32le blob 0), h3]
  · intro tr hG i hi
    have hlen := set_trace_active_len s tr
    unfold load_state
    by_cases h1 : blob = []
    · rw [if_pos h1]
      exact set_trace_solution_zero s tr i hi
    · rw [if_neg h1]
      by_cases h2 : blob.length < 24
      · rw [if_pos h2]
        exact set_trace_solution_zero s tr i hi
      · rw [if_neg h2]
        dsimp only
        rw [if_pos]
        · exact set_trace_solution_zero s tr i hi
        · by_contra hcond
          push_neg at hcond
          rw [hlen] at hcond
          exact hG ⟨h1, by omega, by omega⟩

theorem load_state_guard_witness :
    ¬ (([] : List UInt8) ≠ [] ∧ ([] : List UInt8).length = 24 + 8 * readU32le [] 0
        ∧ readU32le [] 0 = demoStateA.active_len) ∧
      load_state demoStateA [] = demoStateA :=
  ⟨by simp, (load_state_guard demoStateA []).1 (by simp)⟩

/-- **C9.** After `update_cutoffs`, validity holds exactly when
`tau_rise`, `tau_decay`, `fs` are all positive and
`f_hp = 1/(2π·tau_decay·16)` is below `f_lp` (the low-pass cutoff
`4/(2π·tau_rise)` clamped to Nyquist); and for every trace, `apply`
returns `false` and leaves the trace unchanged iff the filter is
disabled, invalid, or the trace is shorter than 8 samples — otherwise
it filters in place and returns `true`. -/
theorem bandpass_apply_guard (f : BandpassFilter) (tau_rise tau_decay fs : ℝ)
    (tr : List ℝ) :
    ((update_cutoffs f tau_rise tau_decay fs).valid = true
        ↔ (0 < tau_rise ∧ 0 < tau_decay ∧ 0 < fs
            ∧ 1 / (2 * Real.pi * tau_decay * 16)
              < min (fs / 2) (4 / (2 * Real.pi * tau_rise))))
    ∧ ((f.apply tr).1 = false
        ↔ (f.enabled = false ∨ f.valid = false ∨ tr.length < 8))
    ∧ ((f.apply tr).1 = false → (f.apply tr).2 = tr)
    ∧ ((f.apply tr).1 = true → (f.apply tr).2 = bandpass_pipeline f tr) := by
  refine ⟨?_, ?_, ?_, ?_⟩
  · unfold update_cutoffs
    by_cases hpos : tau_rise ≤ 0 ∨ tau_decay ≤ 0 ∨ fs ≤ 0
    · rw [if_pos hpos]
      simp only [Bool.false_eq_true, false_iff]
      intro ⟨ha, hb, hc, _⟩
      rcases hpos with h | h | h
      · exact absurd ha (not_lt.mpr h)
      · exact absurd hb (not_lt.mpr h)
      · exact absurd hc (not_lt.mpr h)
    · rw [if_neg hpos]
      push_neg at hpos
      obtain ⟨ha, hb, hc⟩ := hpos
      dsimp only
      rw [decide_eq_true_iff]
      have hmin : (if fs / 2 < 4 / (2 * Real.pi * tau_rise)
            then fs / 2 else 4 / (2 * Real.pi * tau_rise))
          = min (fs / 2) (4 / (2 * Real.pi * tau_rise)) := by
        rcases lt_or_le (fs / 2) (4 / (2 * Real.pi * tau_rise)) with h | h
        · rw [if_pos h, min_eq_left h.le]
        · rw [if_neg (not_lt.mpr h), min_eq_right h]
      rw [hmin]
      constructor
      · intro h
        exact ⟨ha, hb, hc, h⟩
      · intro ⟨_, _, _, h⟩
        exact h
  · unfold BandpassFilter.apply
    by_cases hG : f.enabled = false ∨ f.valid = false ∨ tr.length < 8
    · rw [if_pos hG]
      simpa using hG
    · rw [if_neg hG]
      simpa using hG
  · intro h
    unfold BandpassFilter.apply at h ⊢
    by_cases hG : f.enabled = false ∨ f.valid = false ∨ tr.length < 8
    · rw [if_pos hG]
    · rw [if_neg hG] at h
      exact absurd h (by simp)
  · intro h
    unfold BandpassFilter.apply at h ⊢
    by_cases hG : f.enabled = false ∨ f.valid = false ∨ tr.length < 8
    · rw [if_pos hG] at h
      exact absurd h (by simp)
    · rw [if_neg hG]

theorem bandpass_apply_guard_witness :
    ((update_cutoffs BandpassFilter.new 1 2 1).valid = true
        ↔ ((0 : ℝ) < 1 ∧ (0 : ℝ) < 2 ∧ (0 : ℝ) < 1
            ∧ 1 / (2 * Real.pi * 2 * 16) < min ((1 : ℝ) / 2) (4 / (2 * Real.pi * 1))))
    ∧ ((BandpassFilter.new.apply [1, 2, 3]).1 = false
        ↔ (BandpassFilter.new.enabled = false ∨ BandpassFilter.new.valid = false
            ∨ ([1, 2, 3] : List ℝ).length < 8))
    ∧ ((BandpassFilter.new.apply [1, 2, 3]).1 = false →
        (BandpassFilter.new.apply [1, 2, 3]).2 = [1, 2, 3])
    ∧ ((BandpassFilter.new.apply [1, 2, 3]).1 = true →
        (BandpassFilter.new.apply [1, 2, 3]).2
          = bandpass_pipeline BandpassFilter.new [1, 2, 3]) :=
  bandpass_apply_guard BandpassFilter.new 1 2 1 [1, 2, 3]

theorem one_le_momentum_update (t : ℝ) : 1 ≤ (1 + Real.sqrt (1 + 4 * t * t)) / 2 := by
  have h0 : (1 : ℝ) ≤ 1 + 4 * t * t := by nlinarith [mul_self_nonneg t]
  have hsq : (1 : ℝ) ≤ Real.sqrt (1 + 4 * t * t) := by
    have := Real.sqrt_le_sqrt h0
    rwa [Real.sqrt_one] at this
  linarith

theorem stepBody_t_fista_ge_one (a b : ℝ) (s : SolverState) :
    1 ≤ (stepBody a b s).t_fista := by
  unfold stepBody
  exact one_le_momentum_update _

theorem stepLoop_t_fista_ge_one (a b : ℝ) (k : ℕ) (s : SolverState)
    (h : 1 ≤ s.t_fista) : 1 ≤ (stepLoop a b k s).t_fista := by
  induction k generalizing s with
  | zero => exact h
  | succ k ih =>
    unfold stepLoop
    split
    · exact h
    · exact ih _ (stepBody_t_fista_ge_one a b s)

theorem ensure_fft_buffers_t_fista (s : SolverState) :
    (ensure_fft_buffers s).t_fista = s.t_fista := by
  unfold ensure_fft_buffers
  split
  · rfl
  · dsimp only
    split
    · rfl
    · rfl

theorem set_params_t_fista (s : SolverState) (a b c d : ℝ) :
    (set_params s a b c d).t_fista = s.t_fista := by
  unfold set_params
  dsimp only
  split
  · split
    · rfl
    · rfl
  · rfl

/-- **C7 (amended).** `t_fista ≥ 1` holds after `new`, is preserved by
`set_params` and `step_batch`, is reset to `1` by `set_trace` and
`reset_momentum`, and is preserved by `load_state` whenever the blob is
rejected or the stored `t_fista` decodes to a value `≥ 1` (the original
claim also asserts the invariant after an arbitrary `load_state`, but a
valid blob may store any `f64` — see the counterexample). -/
theorem t_fista_ge_one_invariant :
    1 ≤ Solver.new.t_fista
    ∧ (∀ (s : SolverState) (a b c d : ℝ),
        1 ≤ s.t_fista → 1 ≤ (set_params s a b c d).t_fista)
    ∧ (∀ (s : SolverState) (tr : List ℝ), 1 ≤ (set_trace s tr).t_fista)
    ∧ (∀ s : SolverState, 1 ≤ (reset_momentum s).t_fista)
    ∧ (∀ (s : SolverState) (k : ℕ), 1 ≤ s.t_fista → 1 ≤ (step_batch s k).t_fista)
    ∧ (∀ (s : SolverState) (blob : List UInt8),
        1 ≤ s.t_fista →
        (blob = [] ∨ blob.length ≠ 24 + 8 * readU32le blob 0
          ∨ readU32le blob 0 ≠ s.active_len
          ∨ 1 ≤ decodeF64 (readU64le blob 4)) →
        1 ≤ (load_state s blob).t_fista) := by
  refine ⟨le_refl 1, ?_, ?_, ?_, ?_, ?_⟩
  · intro s a b c d h
    rw [set_params_t_fista]
    exact h
  · intro s tr
    unfold set_trace
    rw [ensure_fft_buffers_t_fista]
  · intro s
    exact le_refl 1
  · intro s k h
    unfold step_batch
    split
    · exact h
    · exact stepLoop_t_fista_ge_one _ _ k s h
  · intro s blob h hcase
    unfold load_state
    split
    · exact h
    · split
      · exact h
      · dsimp only
        split
        · exact h
        · rename_i h1 h2 h3
          push_neg at h3
          obtain ⟨h3a, h3b⟩ := h3
          rcases hcase with hc | hc | hc | hc
          · exact absurd hc h1
          · exact absurd (by omega : blob.length = 24 + 8 * readU32le blob 0) hc
          · exact absurd h3b hc
          · exact hc

theorem t_fista_ge_one_invariant_witness :
    1 ≤ Solver.new.t_fista ∧ 1 ≤ (step_batch Solver.new 3).t_fista
      ∧ 1 ≤ (load_state Solver.new []).t_fista :=
  ⟨t_fista_ge_one_invariant.1,
    t_fista_ge_one_invariant.2.2.2.2.1 Solver.new 3 (le_refl 1),
    t_fista_ge_one_invariant.2.2.2.2.2 Solver.new [] (le_refl 1) (Or.inl rfl)⟩

/-- A size-valid warm-start blob for `n_active = 1` whose stored
`t_fista` is `0.5` (bytes 4..11 are the little-endian IEEE-754 binary64
encoding `0x3FE0000000000000`). -/
def badTBlob : List UInt8 :=
  [1, 0, 0, 0,
   0, 0, 0, 0, 0, 0, 224, 63,
   0, 0, 0, 0,
   0, 0, 0, 0, 0, 0, 0, 0,
   0, 0, 0, 0,
   0, 0, 0, 0]

/-- **C7 counterexample.** `load_state` with a size-valid blob whose
stored `t_fista` is `0.5` drives `t_fista` below `1`, refuting the
invariant for the public operation `load_state`. -/
theorem t_fista_cx : (load_state (set_trace Solver.new [1]) badTBlob).t_fista < 1 := by
  have hact : (set_trace Solver.new [1]).active_len = 1 := set_trace_active_len _ _
  unfold load_state
  rw [if_neg (by decide : ¬ badTBlob = []),
    if_neg (by decide : ¬ badTBlob.length < 24)]
  dsimp only
  rw [if_neg (by
    push_neg
    refine ⟨by decide, ?_⟩
    rw [hact]
    decide)]
  dsimp only
  have hbits : readU64le badTBlob 4 = 4602678819172646912 := by decide
  rw [hbits]
  unfold decodeF64
  norm_num

/-- Elementwise non-negativity of the iterate and the extrapolated
point over the active region. -/
def nonnegState (s : SolverState) : Prop :=
  ∀ i < s.active_len, 0 ≤ s.solution i ∧ 0 ≤ s.solution_prev i

theorem stepBody_active_len (a b : ℝ) (s : SolverState) :
    (stepBody a b s).active_len = s.active_len := rfl

theorem stepLoop_active_len (a b : ℝ) (k : ℕ) (s : SolverState) :
    (stepLoop a b k s).active_len = s.active_len := by
  induction k generalizing s with
  | zero => rfl
  | succ k ih =>
    unfold stepLoop
    split
    · rfl
    · rw [ih]
      exact stepBody_active_len a b s

theorem stepBody_nonneg (a b : ℝ) (s : SolverState) : nonnegState (stepBody a b s) := by
  intro i hi
  have hi' : i < s.active_len := hi
  unfold stepBody
  dsimp only
  simp only [if_pos hi']
  exact ⟨le_max_right _ 0, le_max_right _ 0⟩

theorem stepLoop_nonneg (a b : ℝ) (k : ℕ) (s : SolverState)
    (h : nonnegState s) : nonnegState (stepLoop a b k s) := by
  induction k generalizing s with
  | zero => exact h
  | succ k ih =>
    unfold stepLoop
    split
    · exact h
    · exact ih _ (stepBody_nonneg a b s)

theorem stepLoop_id_or_nonneg (a b : ℝ) (k : ℕ) (s : SolverState) :
    stepLoop a b k s = s ∨ nonnegState (stepLoop a b k s) := by
  cases k with
  | zero => exact Or.inl rfl
  | succ k =>
    unfold stepLoop
    split
    · exact Or.inl rfl
    · exact Or.inr (stepLoop_nonneg a b k _ (stepBody_nonneg a b s))

theorem ensure_fft_buffers_preserves (s : SolverState) :
    (ensure_fft_buffers s).converged = s.converged
    ∧ (ensure_fft_buffers s).solution_prev = s.solution_prev := by
  unfold ensure_fft_buffers
  split
  · exact ⟨rfl, rfl⟩
  · dsimp only
    split
    · exact ⟨rfl, rfl⟩
    · exact ⟨rfl, rfl⟩

theorem set_params_preserves (s : SolverState) (a b c d : ℝ) :
    (set_params s a b c d).converged = s.converged
    ∧ (set_params s a b c d).solution = s.solution
    ∧ (set_params s a b c d).solution_prev = s.solution_prev
    ∧ (set_params s a b c d).active_len = s.active_len := by
  unfold set_params
  dsimp only
  split
  · split
    · exact ⟨rfl, rfl, rfl, rfl⟩
    · exact ⟨rfl, rfl, rfl, rfl⟩
  · exact ⟨rfl, rfl, rfl, rfl⟩

theorem set_trace_converged (s : SolverState) (tr : List ℝ) :
    (set_trace s tr).converged = false := by
  unfold set_trace
  rw [(ensure_fft_buffers_preserves _).1]

theorem load_state_active_len (s : SolverState) (blob : List UInt8) :
    (load_state s blob).active_len = s.active_len := by
  unfold load_state
  split
  · rfl
  · split
    · rfl
    · dsimp only
      split
      · rfl
      · rfl

/-- A converged reachable state has a non-negative iterate and
extrapolated point: convergence is only ever set at the end of a full
iteration (whose proximal step and extrapolation both project onto the
non-negative orthant), and every operation that can install arbitrary
values (`set_trace`, `load_state`) clears the flag. -/
theorem reachable_converged_nonneg (s : SolverState) (hr : Reachable s) :
    s.converged = true → nonnegState s := by
  induction hr with
  | init =>
    intro h
    exact absurd h (by simp [Solver.new])
  | params s a b c d hr ih =>
    intro h i hi
    obtain ⟨hc, hsol, hprev, hlen⟩ := set_params_preserves s a b c d
    rw [hc] at h
    rw [hlen] at hi
    rw [hsol, hprev]
    exact ih h i hi
  | traced s tr hr ih =>
    intro h
    rw [set_trace_converged] at h
    exact absurd h (by simp)
  | batch s k hr ih =>
    intro hconv
    unfold step_batch at hconv ⊢
    by_cases hn : s.active_len = 0
    · rw [if_pos hn] at hconv ⊢
      intro i hi
      exact absurd hi (by
        rw [show ({ s with converged := true } : SolverState).active_len = s.active_len
          from rfl, hn] at hi ⊢
        omega)
    · rw [if_neg hn] at hconv ⊢
      rcases stepLoop_id_or_nonneg (1 / s.lipschitz_constant)
          (1 / s.lipschitz_constant * effective_lambda s) k s with he | hnn
      · rw [he] at hconv ⊢
        exact ih hconv
      · exact hnn
  | momentum s hr ih =>
    intro h i hi
    have hi' : i < s.active_len := hi
    have hx := ih h i hi'
    unfold reset_momentum
    dsimp only
    rw [if_pos hi']
    exact ⟨hx.1, hx.1⟩
  | load s blob hr ih =>
    intro h
    unfold load_state at h ⊢
    by_cases h1 : blob = []
    · rw [if_pos h1] at h ⊢
      exact ih h
    · rw [if_neg h1] at h ⊢
      by_cases h2 : blob.length < 24
      · rw [if_pos h2] at h ⊢
        exact ih h
      · rw [if_neg h2] at h ⊢
        dsimp only at h ⊢
        by_cases h3 : blob.length ≠ 4 + 8 + 4 + 8 + 2 * readU32le blob 0 * 4
            ∨ readU32le blob 0 ≠ s.active_len
        · rw [if_pos h3] at h ⊢
          exact ih h
        · rw [if_neg h3] at h
          exact absurd h (by simp)
  | filtered s hr ih =>
    intro h i hi
    exact ih h i hi
  | filterEnabled s b hr ih =>
    intro h i hi
    exact ih h i hi
  | reconv s hr ih =>
    intro h
    unfold compute_reconvolution at h ⊢
    by_cases hn : s.active_len = 0
    · rw [if_pos hn] at h ⊢
      exact ih h
    · rw [if_neg hn] at h ⊢
      exact fun i hi => ih h i hi

/-- **C5 (amended).** For every reachable solver state with an
installed trace, after `step_batch (n_steps)` with `n_steps ≥ 1`
returns, the solution `x` and the extrapolated point `y_ext` are
elementwise non-negative (the momentum extrapolation is followed by
projection onto the non-negative orthant).  The original claim also
covers `n_steps = 0`, where `step_batch` performs no iteration and a
`load_state` blob with negative entries survives — see the
counterexample. -/
theorem step_batch_nonneg (s : SolverState) (k : ℕ) (hr : Reachable s)
    (hn : 0 < s.active_len) (hk : 1 ≤ k) :
    ∀ i < s.active_len,
      0 ≤ (step_batch s k).solution i ∧ 0 ≤ (step_batch s k).solution_prev i := by
  intro i hi
  unfold step_batch
  rw [if_neg (by omega)]
  cases k with
  | zero => omega
  | succ k =>
    unfold stepLoop
    by_cases hc : s.converged = true
    · rw [if_pos hc]
      exact reachable_converged_nonneg s hr hc i hi
    · rw [if_neg hc]
      refine stepLoop_nonneg _ _ k _ (stepBody_nonneg _ _ s) i ?_
      rw [stepLoop_active_len, stepBody_active_len]
      exact hi

/-- A size-valid warm-start blob for `n_active = 1` storing
`t_fista = 1.0`, `x[0] = -1.0f` (bytes 24..27 are `0xBF800000`) and
`y_ext[0] = 0`. -/
def badXBlob : List UInt8 :=
  [1, 0, 0, 0,
   0, 0, 0, 0, 0, 0, 240, 63,
   0, 0, 0, 0,
   0, 0, 0, 0, 0, 0, 0, 0,
   0, 0, 128, 191,
   0, 0, 0, 0]

/-- **C5 counterexample.** After `set_trace` followed by `load_state`
with a size-valid blob storing `x[0] = -1.0`, the zero-iteration call
`step_batch 0` returns with `x[0] = -1 < 0`, refuting the claim for
`n_steps = 0`. -/
theorem step_batch_nonneg_cx :
    Reachable (load_state (set_trace Solver.new [1]) badXBlob)
    ∧ 0 < (load_state (set_trace Solver.new [1]) badXBlob).active_len
    ∧ (step_batch (load_state (set_trace Solver.new [1]) badXBlob) 0).solution 0 < 0 := by
  have hact : (set_trace Solver.new [1]).active_len = 1 := set_trace_active_len _ _
  have hload : (load_state (set_trace Solver.new [1]) badXBlob).active_len = 1 := by
    rw [load_state_active_len, hact]
  refine ⟨Reachable.load _ _ (Reachable.traced _ _ Reachable.init), by omega, ?_⟩
  unfold step_batch
  rw [if_neg (by omega)]
  show (load_state (set_trace Solver.new [1]) badXBlob).solution 0 < 0
  unfold load_state
  rw [if_neg (by decide : ¬ badXBlob = []),
    if_neg (by decide : ¬ badXBlob.length < 24)]
  dsimp only
  rw [if_neg (by
    push_neg
    refine ⟨by decide, ?_⟩
    rw [hact]
    decide)]
  dsimp only
  rw [if_pos (by decide : 0 < readU32le badXBlob 0)]
  have hbits : readU32le badXBlob 24 = 3212836864 := by decide
  rw [hbits]
  unfold decodeF32
  norm_num

theorem step_batch_nonneg_witness :
    Reachable (set_trace Solver.new [1])
    ∧ 0 < (set_trace Solver.new [1]).active_len
    ∧ (0 ≤ (step_batch (set_trace Solver.new [1]) 1).solution 0
        ∧ 0 ≤ (step_batch (set_trace Solver.new [1]) 1).solution_prev 0) := by
  have hr : Reachable (set_trace Solver.new [1]) := Reachable.traced _ _ Reachable.init
  have hn : 0 < (set_trace Solver.new [1]).active_len := by
    rw [set_trace_active_len]
    norm_num
  exact ⟨hr, hn, step_batch_nonneg _ 1 hr hn (le_refl 1) 0 hn⟩

theorem ceil_kernel_len_A : ⌈(-Real.log 1e-6) * (0.01 : ℝ) / (1 / 1)⌉₊ = 1 := by
  have hx : (-Real.log 1e-6) * (0.01 : ℝ) / (1 / 1) = 0.06 * Real.log 10 := by
    rw [neg_log_1em6]
    ring
  rw [hx]
  have hpos : (0 : ℝ) < 0.06 * Real.log 10 := by nlinarith [log_ten_pos]
  have hle : (0.06 : ℝ) * Real.log 10 ≤ 1 := by nlinarith [log_ten_le_nine]
  refine le_antisymm (Nat.ceil_le.mpr (by exact_mod_cast hle)) (Nat.ceil_pos.mpr hpos)

theorem ceil_kernel_len_B : ⌈(-Real.log 1e-6) * (0.25 : ℝ) / (1 / 1)⌉₊ = 4 := by
  have hx : (-Real.log 1e-6) * (0.25 : ℝ) / (1 / 1) = 1.5 * Real.log 10 := by
    rw [neg_log_1em6]
    ring
  rw [hx]
  have hgt : (3 : ℝ) < 1.5 * Real.log 10 := by nlinarith [two_lt_log_ten]
  have hle : (1.5 : ℝ) * Real.log 10 ≤ 4 := by nlinarith [log_ten_lt_83]
  refine le_antisymm (Nat.ceil_le.mpr (by exact_mod_cast hle)) ?_
  have := Nat.lt_ceil.mpr (show ((3 : ℕ) : ℝ) < 1.5 * Real.log 10 by exact_mod_cast hgt)
  omega

/-- When the truncation length comes out at the minimum `2`, the
double-exponential kernel normalises to exactly `[0, 1]`. -/
theorem build_kernel_two (tau_rise tau_decay fs : ℝ) (h1 : 0 < tau_rise)
    (h2 : tau_rise < tau_decay) (h3 : 0 < fs)
    (hm : ⌈(-Real.log 1e-6) * tau_decay / (1 / fs)⌉₊ ≤ 2) :
    build_kernel tau_rise tau_decay fs = [0, 1] := by
  simp only [build_kernel]
  rw [show max ⌈(-Real.log 1e-6) * tau_decay / (1 / fs)⌉₊ 2 = 2 from by omega]
  rw [show List.range 2 = [0, 1] from by decide]
  simp only [List.map_cons, List.map_nil]
  have hf0 : Real.exp (-(((0 : ℕ) : ℝ) * (1 / fs)) / tau_decay)
      - Real.exp (-(((0 : ℕ) : ℝ) * (1 / fs)) / tau_rise) = 0 := by
    norm_num
  set v : ℝ := Real.exp (-(((1 : ℕ) : ℝ) * (1 / fs)) / tau_decay)
    - Real.exp (-(((1 : ℕ) : ℝ) * (1 / fs)) / tau_rise) with hv
  have hvpos : 0 < v := by
    have hlt : -(((1 : ℕ) : ℝ) * (1 / fs)) / tau_rise
        < -(((1 : ℕ) : ℝ) * (1 / fs)) / tau_decay := by
      rw [neg_div, neg_div, neg_lt_neg_iff]
      refine div_lt_div_of_pos_left (by positivity) h1 h2
    have := Real.exp_lt_exp.mpr hlt
    rw [hv]
    linarith
  rw [hf0]
  have hfold : (([0, v] : List ℝ).foldl max 0) = v := by
    simp only [List.foldl_cons, List.foldl_nil, max_self]
    exact max_eq_right hvpos.le
  rw [hfold, if_pos hvpos]
  simp only [List.map_cons, List.map_nil, zero_div, div_self hvpos.ne']

theorem bk_A : build_kernel 0.005 0.01 1 = [0, 1] :=
  build_kernel_two 0.005 0.01 1 (by norm_num) (by norm_num) (by norm_num)
    (by rw [ceil_kernel_len_A]; omega)

/-- Bin `2` of a 4-point DFT: the alternating sum of the samples. -/
theorem dft_four_two (x : ℕ → ℂ) : dft 4 x 2 = x 0 - x 1 + x 2 - x 3 := by
  unfold dft
  rw [Finset.sum_range_succ, Finset.sum_range_succ, Finset.sum_range_succ,
    Finset.sum_range_succ, Finset.sum_range_zero]
  have e0 : Complex.exp (-(2 * (Real.pi : ℂ) * Complex.I) * (2 : ℕ) * (0 : ℕ) / (4 : ℕ))
      = 1 := by
    rw [show (-(2 * (Real.pi : ℂ) * Complex.I) * (2 : ℕ) * (0 : ℕ) / (4 : ℕ)) = 0 from by
      push_cast
      ring]
    exact Complex.exp_zero
  have e1 : Complex.exp (-(2 * (Real.pi : ℂ) * Complex.I) * (2 : ℕ) * (1 : ℕ) / (4 : ℕ))
      = -1 := by
    rw [show (-(2 * (Real.pi : ℂ) * Complex.I) * (2 : ℕ) * (1 : ℕ) / (4 : ℕ))
        = -((Real.pi : ℂ) * Complex.I) from by
      push_cast
      ring]
    rw [Complex.exp_neg, Complex.exp_pi_mul_I]
    norm_num
  have e2 : Complex.exp (-(2 * (Real.pi : ℂ) * Complex.I) * (2 : ℕ) * (2 : ℕ) / (4 : ℕ))
      = 1 := by
    rw [show (-(2 * (Real.pi : ℂ) * Complex.I) * (2 : ℕ) * (2 : ℕ) / (4 : ℕ))
        = -(2 * (Real.pi : ℂ) * Complex.I) from by
      push_cast
      ring]
    rw [Complex.exp_neg, Complex.exp_two_pi_mul_I]
    norm_num
  have e3 : Complex.exp (-(2 * (Real.pi : ℂ) * Complex.I) * (2 : ℕ) * (3 : ℕ) / (4 : ℕ))
      = -1 := by
    rw [show (-(2 * (Real.pi : ℂ) * Complex.I) * (2 : ℕ) * (3 : ℕ) / (4 : ℕ))
        = -((Real.pi : ℂ) * Complex.I) + -(2 * (Real.pi : ℂ) * Complex.I) from by
      push_cast
      ring]
    rw [Complex.exp_add, Complex.exp_neg, Complex.exp_neg, Complex.exp_pi_mul_I,
      Complex.exp_two_pi_mul_I]
    norm_num
  rw [e0, e1, e2, e3]
  ring

theorem bk_B_facts :
    (build_kernel 0.125 0.25 1).length = 4
    ∧ (build_kernel 0.125 0.25 1).getD 0 0
        - (build_kernel 0.125 0.25 1).getD 1 0
        + (build_kernel 0.125 0.25 1).getD 2 0
        - (build_kernel 0.125 0.25 1).getD 3 0 ≠ -1 := by
  have hceil : ⌈(-Real.log 1e-6) * (0.25 : ℝ) / (1 / 1)⌉₊ = 4 := ceil_kernel_len_B
  have hm : max ⌈(-Real.log 1e-6) * (0.25 : ℝ) / (1 / 1)⌉₊ 2 = 4 := by omega
  constructor
  · rw [build_kernel_length]
    omega
  · set g : ℕ → ℝ := fun i =>
      Real.exp (-((i : ℝ) * (1 / 1)) / 0.25) - Real.exp (-((i : ℝ) * (1 / 1)) / 0.125)
      with hg
    set vals : List ℝ := (List.range 4).map g with hvals
    set p : ℝ := vals.foldl max 0 with hp
    have hg0 : g 0 = 0 := by
      rw [hg]
      norm_num
    have hg1 : g 1 = Real.exp (-4) - Real.exp (-8) := by
      rw [hg]
      norm_num
    have hg2 : g 2 = Real.exp (-8) - Real.exp (-16) := by
      rw [hg]
      norm_num
    have hg3 : g 3 = Real.exp (-12) - Real.exp (-24) := by
      rw [hg]
      norm_num
    have hg1pos : 0 < g 1 := by
      rw [hg1]
      have := Real.exp_lt_exp.mpr (show (-8 : ℝ) < -4 by norm_num)
      linarith
    have h1mem : g 1 ∈ vals := List.mem_map.mpr ⟨1, List.mem_range.mpr (by omega), rfl⟩
    have hp1 : g 1 ≤ p := le_foldl_max vals 0 (g 1) h1mem
    have hppos : 0 < p := lt_of_lt_of_le hg1pos hp1
    have hbk : build_kernel 0.125 0.25 1 = if 0 < p then vals.map (fun v => v / p) else vals := by
      simp only [build_kernel]
      rw [hm]
    rw [hbk, if_pos hppos, hvals, List.map_map]
    rw [getD_range_map _ 4 0 (by omega), getD_range_map _ 4 1 (by omega),
      getD_range_map _ 4 2 (by omega), getD_range_map _ 4 3 (by omega)]
    simp only [Function.comp_apply]
    rw [hg0, hg1, hg2, hg3]
    intro heq
    have hcollect : (0 : ℝ) / p - (Real.exp (-4) - Real.exp (-8)) / p
        + (Real.exp (-8) - Real.exp (-16)) / p - (Real.exp (-12) - Real.exp (-24)) / p
        = (0 - (Real.exp (-4) - Real.exp (-8)) + (Real.exp (-8) - Real.exp (-16))
            - (Real.exp (-12) - Real.exp (-24))) / p := by
      ring
    rw [hcollect, div_eq_iff hppos.ne'] at heq
    have hpval : p = (Real.exp (-4) - Real.exp (-8)) - (Real.exp (-8) - Real.exp (-16))
        + (Real.exp (-12) - Real.exp (-24)) := by linarith
    have hexp4 : (2 : ℝ) < Real.exp 4 := by linarith [Real.add_one_le_exp (4 : ℝ)]
    have hsplit : Real.exp (-12 : ℝ) * Real.exp (4 : ℝ) = Real.exp (-8 : ℝ) := by
      rw [← Real.exp_add]
      norm_num
    have h16 : Real.exp (-16 : ℝ) < Real.exp (-12 : ℝ) := Real.exp_lt_exp.mpr (by norm_num)
    have h0 : Real.exp (-12 : ℝ) + Real.exp (-16 : ℝ) < Real.exp (-8 : ℝ) := by
      nlinarith [Real.exp_pos (-12 : ℝ)]
    have hg23 : Real.exp (-12 : ℝ) - Real.exp (-24 : ℝ)
        < Real.exp (-8 : ℝ) - Real.exp (-16 : ℝ) := by
      have := Real.exp_pos (-24 : ℝ)
      linarith
    rw [hg1] at hp1
    linarith

theorem ensure_fft_buffers_eval (s : SolverState) (hn : s.active_len ≠ 0)
    (hk : s.kernel.length ≠ 0)
    (hne : nextPow2 (s.active_len + s.kernel.length - 1) ≠ s.fft_len) :
    ensure_fft_buffers s
      = prepare_kernel_fft
          { s with fft_len := nextPow2 (s.active_len + s.kernel.length - 1) } := by
  unfold ensure_fft_buffers
  rw [if_neg (by push_neg; exact ⟨hn, hk⟩)]
  dsimp only
  rw [if_neg hne]

/-- The cached kernel spectrum and its conjugate agree with the
spectrum of the current kernel at the current padded length on the
stored `N/2 + 1` bins. -/
def spectrumConsistent (s : SolverState) : Prop :=
  ∀ i < s.fft_len / 2 + 1,
    s.kernel_fft i = dftSpec s.kernel s.fft_len i
    ∧ s.kernel_conj_fft i = (starRingEnd ℂ) (dftSpec s.kernel s.fft_len i)

def c6s1 : SolverState := set_params Solver.new 0.005 0.01 0 1

def c6s2 : SolverState := set_trace c6s1 [1, 1, 1]

def c6s3 : SolverState := set_trace c6s2 []

/-- The state reached by `set_params(0.005, 0.01, 0, 1)`,
`set_trace([1,1,1])`, `set_trace([])`, `set_params(0.125, 0.25, 0, 1)`:
FFT buffers exist (`N = 4`) but `n_active = 0`, so the final
`set_params` neither re-prepares the kernel spectrum nor invalidates. -/
def c6state : SolverState := set_params c6s3 0.125 0.25 0 1

theorem c6s1_facts : c6s1.fft_len = 0 ∧ c6s1.active_len = 0 ∧ c6s1.kernel = [0, 1] := by
  have hguard : ¬ (0 < Solver.new.fft_len ∧ 0 < Solver.new.active_len) := by
    intro h
    exact absurd h.1 (by decide)
  unfold c6s1 set_params
  dsimp only
  rw [if_neg hguard]
  exact ⟨rfl, rfl, bk_A⟩

theorem nextPow2_four : nextPow2 4 = 4 := by
  have h : (4 : ℕ) = 2 ^ 2 := by norm_num
  rw [nextPow2, h, Nat.clog_pow 2 2 (by norm_num)]

theorem ensure_fft_buffers_id (s : SolverState)
    (h : s.active_len = 0 ∨ s.kernel.length = 0) : ensure_fft_buffers s = s := by
  unfold ensure_fft_buffers
  rw [if_pos h]

theorem c6s2_facts :
    c6s2.fft_len = 4 ∧ c6s2.kernel_fft = dftSpec [0, 1] 4
    ∧ c6s2.kernel = [0, 1] ∧ c6s2.active_len = 3 := by
  obtain ⟨h1f, h1a, h1k⟩ := c6s1_facts
  unfold c6s2 set_trace
  rw [ensure_fft_buffers_eval _ ?hn ?hk ?hne]
  case hn =>
    show ([1, 1, 1] : List ℝ).length ≠ 0
    simp
  case hk =>
    show c6s1.kernel.length ≠ 0
    rw [h1k]
    simp
  case hne =>
    show nextPow2 (([1, 1, 1] : List ℝ).length + c6s1.kernel.length - 1) ≠ c6s1.fft_len
    rw [h1k, h1f]
    show nextPow2 4 ≠ 0
    rw [nextPow2_four]
    omega
  refine ⟨?_, ?_, ?_, ?_⟩
  · show nextPow2 (([1, 1, 1] : List ℝ).length + c6s1.kernel.length - 1) = 4
    rw [h1k]
    exact nextPow2_four
  · show dftSpec c6s1.kernel
        (nextPow2 (([1, 1, 1] : List ℝ).length + c6s1.kernel.length - 1)) = dftSpec [0, 1] 4
    rw [h1k]
    rw [show nextPow2 (([1, 1, 1] : List ℝ).length + ([0, 1] : List ℝ).length - 1) = 4
      from nextPow2_four]
  · show c6s1.kernel = [0, 1]
    exact h1k
  · show ([1, 1, 1] : List ℝ).length = 3
    rfl

theorem c6s3_facts :
    c6s3.fft_len = 4 ∧ c6s3.kernel_fft = dftSpec [0, 1] 4
    ∧ c6s3.kernel = [0, 1] ∧ c6s3.active_len = 0 := by
  obtain ⟨h2f, h2s, h2k, h2a⟩ := c6s2_facts
  unfold c6s3 set_trace
  rw [ensure_fft_buffers_id]
  · exact ⟨h2f, h2s, h2k, rfl⟩
  · exact Or.inl rfl

theorem c6state_facts :
    c6state.fft_len = 4 ∧ c6state.kernel_fft = dftSpec [0, 1] 4
    ∧ c6state.kernel = build_kernel 0.125 0.25 1 := by
  obtain ⟨h3f, h3s, h3k, h3a⟩ := c6s3_facts
  have hguard : ¬ (0 < c6s3.fft_len ∧ 0 < c6s3.active_len) := by
    intro h
    rw [h3a] at h
    exact absurd h.2 (by omega)
  unfold c6state set_params
  dsimp only
  rw [if_neg hguard]
  exact ⟨h3f, h3s, rfl⟩

/-- **C6 divergence demonstration.** Along the reachable operation
sequence `new; set_params(0.005,0.01,0,1); set_trace([1,1,1]);
set_trace([]); set_params(0.125,0.25,0,1)`, the final `set_params`
leaves `fft_len = 4` (the convolver is *not* invalidated) while the
cached kernel spectrum is still that of the previous kernel `[0,1]`
and differs from the spectrum of the new kernel at bin `2` — so
neither disjunct of the claim holds after this `set_params`. -/
theorem set_params_stale_spectrum :
    Reachable c6state ∧ c6state.fft_len ≠ 0 ∧ ¬ spectrumConsistent c6state := by
  obtain ⟨hf, hs, hk⟩ := c6state_facts
  refine ⟨?_, ?_, ?_⟩
  · exact Reachable.params _ _ _ _ _
      (Reachable.traced _ _ (Reachable.traced _ _
        (Reachable.params _ _ _ _ _ Reachable.init)))
  · rw [hf]
    omega
  · intro hcon
    have h2 := (hcon 2 (by rw [hf]; omega)).1
    rw [hs, hf, hk] at h2
    obtain ⟨hBlen, hBne⟩ := bk_B_facts
    have hcached : dftSpec [0, 1] 4 2 = -1 := by
      unfold dftSpec
      rw [dft_four_two]
      norm_num
    have hnew : dftSpec (build_kernel 0.125 0.25 1) 4 2
        = (((build_kernel 0.125 0.25 1).getD 0 0
            - (build_kernel 0.125 0.25 1).getD 1 0
            + (build_kernel 0.125 0.25 1).getD 2 0
            - (build_kernel 0.125 0.25 1).getD 3 0 : ℝ) : ℂ) := by
      unfold dftSpec
      rw [dft_four_two]
      rw [if_pos (by omega : 0 < (build_kernel 0.125 0.25 1).length),
        if_pos (by omega : 1 < (build_kernel 0.125 0.25 1).length),
        if_pos (by omega : 2 < (build_kernel 0.125 0.25 1).length),
        if_pos (by omega : 3 < (build_kernel 0.125 0.25 1).length)]
      push_cast
      ring
    rw [hcached, hnew] at h2
    have hreal : (build_kernel 0.125 0.25 1).getD 0 0
        - (build_kernel 0.125 0.25 1).getD 1 0
        + (build_kernel 0.125 0.25 1).getD 2 0
        - (build_kernel 0.125 0.25 1).getD 3 0 = -1 := by
      have := h2.symm
      exact_mod_cast this
    exact hBne hreal
